import Mathlib

/-!
Verification of the docrawl concurrent crawl engine
(`internal/crawler/crawler.go`) against its specification.

The crawler is embedded shallowly:

* `normalizeURL` mirrors the Go function of the same name (cut the string at
  the first `#` when that `#` is not the first byte).
* The concurrent traversal (`Crawl` / `crawlPage`) is embedded as a
  small-step transition system `Step` over a global state `St`.  Each
  constructor of `Step` is one atomic action of one goroutine, exactly the
  granularity the Go code's mutexes and channel operations create:
  the depth check plus the mutex-guarded visited test-and-set, the semaphore
  acquire, the HTTP round trip, the mutex-guarded page append, the per-anchor
  filter/spawn of the `doc.Find("a").Each` loop, and the `wg.Wait` join that
  runs the deferred semaphore release.
* External collaborators (the HTTP fetch including goquery parsing, Go's
  `net/url` parsing/`Hostname`, and `ResolveReference`) are an abstract
  environment `Env`, as they are library code outside the repository.

Ghost fields (`fetched`, `acquires`, `releases`, `waits`) record the event
history; no Go control flow depends on them.
-/

namespace Docrawl

/-! ## URL canonicalization (`normalizeURL`, crawler.go lines 176-183)

Go code:
```
if i := strings.Index(rawURL, "#"); i > 0 {
    rawURL = rawURL[:i]
}
return rawURL
```
`strings.Index` returns the byte index of the first `#` or `-1`.  Since `#`
is a single ASCII byte it cannot occur inside a multi-byte UTF-8 character,
so the byte-level cut coincides with the character-level cut and the
condition `i > 0` says: the first character is not `#` and some `#` occurs.
-/

/-- Take the characters strictly before the first `#` (identity when no `#`
occurs). -/
def takeToHash : List Char → List Char
  | [] => []
  | c :: rest => if c = '#' then [] else c :: takeToHash rest

/-- Character-level core of `normalizeURL`: cut at the first `#` unless it
is the very first character (Go's `i > 0` guard). -/
def stripFrag : List Char → List Char
  | [] => []
  | c :: rest => if c = '#' then c :: rest else c :: takeToHash rest

/-- Embedding of `normalizeURL` from crawler.go. -/
def normalizeURL (s : String) : String := ⟨stripFrag s.data⟩

theorem takeToHash_not_mem (l : List Char) : '#' ∉ takeToHash l := by
  induction l with
  | nil => simp [takeToHash]
  | cons c rest ih =>
    by_cases h : c = '#'
    · simp [takeToHash, h]
    · simp only [takeToHash, if_neg h, List.mem_cons, not_or]
      exact ⟨fun hc => h hc.symm, ih⟩

theorem takeToHash_of_not_mem (l : List Char) (h : '#' ∉ l) :
    takeToHash l = l := by
  induction l with
  | nil => rfl
  | cons c rest ih =>
    simp only [List.mem_cons, not_or] at h
    have hc : ¬ c = '#' := fun hc => h.1 hc.symm
    simp [takeToHash, hc, ih h.2]

theorem takeToHash_append (l r : List Char) (h : '#' ∉ l) :
    takeToHash (l ++ '#' :: r) = l := by
  induction l with
  | nil => simp [takeToHash]
  | cons c rest ih =>
    simp only [List.mem_cons, not_or] at h
    have hc : ¬ c = '#' := fun hc => h.1 hc.symm
    simp [takeToHash, hc, ih h.2]

theorem stripFrag_of_not_mem (l : List Char) (h : '#' ∉ l) :
    stripFrag l = l := by
  cases l with
  | nil => rfl
  | cons c rest =>
    simp only [List.mem_cons, not_or] at h
    have hc : ¬ c = '#' := fun hc => h.1 hc.symm
    simp [stripFrag, hc, takeToHash_of_not_mem rest h.2]

theorem stripFrag_not_mem_of_head (c : Char) (rest : List Char)
    (hc : ¬ c = '#') : '#' ∉ stripFrag (c :: rest) := by
  simp only [stripFrag, if_neg hc, List.mem_cons, not_or]
  exact ⟨fun h => hc h.symm, takeToHash_not_mem rest⟩

theorem stripFrag_idem (l : List Char) :
    stripFrag (stripFrag l) = stripFrag l := by
  cases l with
  | nil => rfl
  | cons c rest =>
    by_cases hc : c = '#'
    · simp [stripFrag, hc]
    · have := stripFrag_not_mem_of_head c rest hc
      exact stripFrag_of_not_mem _ this

theorem stripFrag_append (l r : List Char) (hne : l ≠ [])
    (h : '#' ∉ l) : stripFrag (l ++ '#' :: r) = l := by
  cases l with
  | nil => exact absurd rfl hne
  | cons c rest =>
    simp only [List.mem_cons, not_or] at h
    have hc : ¬ c = '#' := fun hc => h.1 hc.symm
    simp [stripFrag, hc, takeToHash_append rest r h.2]

/-! ## Data model

`Page`, `Crawler` configuration, and the abstract environment.  The Go
`Crawler` struct fields `baseURL`, `maxDepth`, `timeout`, `delay` become
`Config`; `visited`, `pages`, `semaphore` are the mutable state `St`.
`delay` is Go's `time.Duration` (an integer nanosecond count computed in
`New` from `delaySeconds`); `timeout` is the per-request timeout in seconds.
Both are carried for faithfulness to `New`; crawler.go never reads `delay`
and `timeout` only configures the HTTP client, which is abstracted into
`Env.fetch`.
-/

/-- A successful fetch: HTTP 200 plus a goquery-parsed document, reduced to
what crawlPage reads from it: the `title` text, the extracted main content,
and the `href` attributes of the anchor tags in document order. -/
structure FetchOk where
  title : String
  content : String
  links : List String
deriving DecidableEq

/-- Immutable crawler configuration as created by `New` (crawler.go 37-47). -/
structure Config where
  baseURL : String
  maxDepth : Int
  timeout : Int
  delay : Int
deriving DecidableEq

/-- Abstract external collaborators.
`fetch u` is the whole `http.NewRequest` / `client.Do` / status check /
`goquery.NewDocumentFromReader` pipeline on URL `u`: `none` for any request
error, transport error, non-200 status, or parse error; `some` carries the
parsed document data.  `resolve base href` is `resolveURL` (Go `net/url`
`Parse` + `ResolveReference`), `none` on a parse error.  `hostname u` is
`url.Parse(u).Hostname()`, `none` when `url.Parse` fails. -/
structure Env where
  fetch : String → Option FetchOk
  resolve : String → String → Option String
  hostname : String → Option String

/-- The `Page` record from crawler.go (lines 16-21). -/
structure Page where
  URL : String
  Title : String
  Content : String
  Depth : Int
deriving DecidableEq

/-- The program counter of one `crawlPage` goroutine, naming the atomic
sections the mutexes and the semaphore channel create:
`entry` = about to run the depth check and the mutex-guarded visited
test-and-set; `waiting` = blocked on `c.semaphore <- struct{}{}`;
`fetching` = slot held, HTTP round trip in flight; `appending r` = fetch
succeeded with data `r`, about to append under `pagesMux`; `scanning ls ch`
= iterating the remaining anchors `ls` of the `doc.Find("a").Each` loop,
having spawned children `ch`; `joining ch` = in `wg.Wait()` on children
`ch`, after which the deferred semaphore release runs. -/
inductive Phase where
  | entry
  | waiting
  | fetching
  | appending (r : FetchOk)
  | scanning (links : List String) (children : List Nat)
  | joining (children : List Nat)
deriving DecidableEq

/-- One goroutine executing `crawlPage (url, depth)`. -/
structure Task where
  id : Nat
  url : String
  depth : Int
  phase : Phase
deriving DecidableEq

/-- Global crawl state.  `tasks`, `visited`, `pages`, `sem` (occupancy of
the capacity-5 semaphore channel) and `nextId` mirror the program;
`rootFailed` records whether the top-level `crawlPage` call returned a
non-nil error (the only error `Crawl` inspects, crawler.go 60-63).
`fetched` (URLs for which the fetch step ran), `acquires`, `releases`
(semaphore operations) and `waits` (politeness delays performed — crawler.go
contains no delay, so no step touches it) are ghost history fields. -/
structure St where
  tasks : List Task
  visited : List String
  pages : List Page
  sem : Nat
  nextId : Nat
  rootFailed : Bool
  fetched : List String
  acquires : Nat
  releases : Nat
  waits : Nat
deriving DecidableEq

/-- Embedding of `strings.HasSuffix` (byte-level suffix test; all suffixes
used are ASCII so the character-level test coincides). -/
def hasSuffix (s suffix : String) : Bool := suffix.data.isSuffixOf s.data

/-- The child-link filter of crawlPage (lines 148-163): resolve `href`
against the page's (normalized) URL; keep the absolute URL only if
`url.Parse` succeeds, its hostname equals the base domain, and it does not
end in `.pdf` or `.zip`.  `none` means the anchor is skipped. -/
def linkTarget (env : Env) (dom base href : String) : Option String :=
  match env.resolve base href with
  | none => none
  | some abs =>
    match env.hostname abs with
    | none => none
    | some d =>
      if d = dom then
        if hasSuffix abs ".pdf" || hasSuffix abs ".zip" then none
        else some abs
      else none

/-- The page record crawlPage appends (lines 127-132). -/
def pageOf (u : String) (r : FetchOk) (d : Int) : Page :=
  ⟨u, r.title, r.content, d⟩

/-- Capacity of the semaphore channel `make(chan struct{}, 5)`
(crawler.go line 45). -/
def maxConcurrentFetches : Nat := 5

/-! ## Small-step operational semantics of the concurrent traversal

One constructor per atomic action of one goroutine.  The scheduler is the
nondeterministic choice of which task (split `l₁ ++ t :: l₂` of the task
list) moves.  The Go source justifies the atomic sections:

* `entryDeep` / `entryVisited` / `entryWins`: lines 69-85 — the depth check
  reads only task-local data, and the visited lookup *and* insertion happen
  inside one `visitedMux.Lock()`/`Unlock()` pair, hence one atomic step.
* `acquire`: line 88, `c.semaphore <- struct{}{}` on the capacity-5 channel.
* `fetchOk` / `fetchFail`: lines 92-120 — request construction, `client.Do`,
  the status check and the goquery parse; any failure returns from
  `crawlPage`, which fires the deferred release `<-c.semaphore` (line 89)
  and, for the root call only, surfaces the error to `Crawl`.
* `append`: lines 127-136 — the `pagesMux`-guarded append.
* `scanSkip` / `scanSpawn`: lines 142-170 — per-anchor filtering in the
  parent and `go c.crawlPage(url, depth+1, baseDomain)` for survivors;
  the spawned child's error is discarded (line 168, `_ =`).
* `scanDone` / `joinDone`: lines 172-173 — `wg.Wait()` returns once every
  spawned child has finished, then `crawlPage` returns nil, firing the
  deferred semaphore release.
-/

/-- One atomic step of the crawl, parameterized by the configuration, the
environment and the base domain computed by `Crawl` (line 57). -/
inductive Step (cfg : Config) (env : Env) (dom : String) : St → St → Prop
  | entryDeep (s : St) (l₁ l₂ : List Task) (t : Task)
      (hts : s.tasks = l₁ ++ t :: l₂) (hph : t.phase = .entry)
      (hd : cfg.maxDepth < t.depth) :
      Step cfg env dom s { s with tasks := l₁ ++ l₂ }
  | entryVisited (s : St) (l₁ l₂ : List Task) (t : Task)
      (hts : s.tasks = l₁ ++ t :: l₂) (hph : t.phase = .entry)
      (hd : t.depth ≤ cfg.maxDepth)
      (hv : normalizeURL t.url ∈ s.visited) :
      Step cfg env dom s { s with tasks := l₁ ++ l₂ }
  | entryWins (s : St) (l₁ l₂ : List Task) (t : Task)
      (hts : s.tasks = l₁ ++ t :: l₂) (hph : t.phase = .entry)
      (hd : t.depth ≤ cfg.maxDepth)
      (hv : normalizeURL t.url ∉ s.visited) :
      Step cfg env dom s
        { s with tasks := l₁ ++ { t with phase := .waiting } :: l₂,
                 visited := normalizeURL t.url :: s.visited }
  | acquire (s : St) (l₁ l₂ : List Task) (t : Task)
      (hts : s.tasks = l₁ ++ t :: l₂) (hph : t.phase = .waiting)
      (hsem : s.sem < maxConcurrentFetches) :
      Step cfg env dom s
        { s with tasks := l₁ ++ { t with phase := .fetching } :: l₂,
                 sem := s.sem + 1, acquires := s.acquires + 1 }
  | fetchOk (s : St) (l₁ l₂ : List Task) (t : Task) (r : FetchOk)
      (hts : s.tasks = l₁ ++ t :: l₂) (hph : t.phase = .fetching)
      (hf : env.fetch (normalizeURL t.url) = some r) :
      Step cfg env dom s
        { s with tasks := l₁ ++ { t with phase := .appending r } :: l₂,
                 fetched := s.fetched ++ [normalizeURL t.url] }
  | fetchFail (s : St) (l₁ l₂ : List Task) (t : Task)
      (hts : s.tasks = l₁ ++ t :: l₂) (hph : t.phase = .fetching)
      (hf : env.fetch (normalizeURL t.url) = none) :
      Step cfg env dom s
        { s with tasks := l₁ ++ l₂, sem := s.sem - 1,
                 releases := s.releases + 1,
                 fetched := s.fetched ++ [normalizeURL t.url],
                 rootFailed := s.rootFailed || t.id == 0 }
  | append (s : St) (l₁ l₂ : List Task) (t : Task) (r : FetchOk)
      (hts : s.tasks = l₁ ++ t :: l₂) (hph : t.phase = .appending r) :
      Step cfg env dom s
        { s with tasks := l₁ ++ { t with phase := .scanning r.links [] } :: l₂,
                 pages := s.pages ++ [pageOf (normalizeURL t.url) r t.depth] }
  | scanSkip (s : St) (l₁ l₂ : List Task) (t : Task)
      (href : String) (rest : List String) (ch : List Nat)
      (hts : s.tasks = l₁ ++ t :: l₂)
      (hph : t.phase = .scanning (href :: rest) ch)
      (hl : linkTarget env dom (normalizeURL t.url) href = none) :
      Step cfg env dom s
        { s with tasks := l₁ ++ { t with phase := .scanning rest ch } :: l₂ }
  | scanSpawn (s : St) (l₁ l₂ : List Task) (t : Task)
      (href : String) (rest : List String) (ch : List Nat) (abs : String)
      (hts : s.tasks = l₁ ++ t :: l₂)
      (hph : t.phase = .scanning (href :: rest) ch)
      (hl : linkTarget env dom (normalizeURL t.url) href = some abs) :
      Step cfg env dom s
        { s with
            tasks := (l₁ ++ { t with phase := .scanning rest (ch ++ [s.nextId]) } :: l₂)
                       ++ [⟨s.nextId, abs, t.depth + 1, .entry⟩],
            nextId := s.nextId + 1 }
  | scanDone (s : St) (l₁ l₂ : List Task) (t : Task) (ch : List Nat)
      (hts : s.tasks = l₁ ++ t :: l₂)
      (hph : t.phase = .scanning [] ch) :
      Step cfg env dom s
        { s with tasks := l₁ ++ { t with phase := .joining ch } :: l₂ }
  | joinDone (s : St) (l₁ l₂ : List Task) (t : Task) (ch : List Nat)
      (hts : s.tasks = l₁ ++ t :: l₂)
      (hph : t.phase = .joining ch)
      (hch : ∀ t' ∈ l₁ ++ l₂, t'.id ∉ ch) :
      Step cfg env dom s
        { s with tasks := l₁ ++ l₂, sem := s.sem - 1,
                 releases := s.releases + 1 }

/-- Initial state of `Crawl` (crawler.go 50-60): fresh visited map, empty
page list, empty semaphore, and the single top-level `crawlPage` call on the
seed at depth 0. -/
def initSt (cfg : Config) : St :=
  { tasks := [⟨0, cfg.baseURL, 0, .entry⟩], visited := [], pages := [],
    sem := 0, nextId := 1, rootFailed := false, fetched := [],
    acquires := 0, releases := 0, waits := 0 }

/-- Reachability from the initial state of `Crawl`. -/
def Reach (cfg : Config) (env : Env) (dom : String) (s : St) : Prop :=
  Relation.ReflTransGen (Step cfg env dom) (initSt cfg) s

/-- The value `Crawl` returns once the traversal has unwound (crawler.go
60-65): `none` models `(nil, err)` when the root `crawlPage` call returned
an error, otherwise `some c.pages`. -/
def finalResult (s : St) : Option (List Page) :=
  if s.rootFailed then none else some s.pages

/-- The seed parse at the top of `Crawl` (crawler.go 51-57): `none` models
the `InvalidSeedURL` early return `(nil, err)` when `url.Parse` fails, and
otherwise the crawl starts from `initSt` with `dom` the seed's hostname. -/
def crawlStart (cfg : Config) (env : Env) : Option (String × St) :=
  match env.hostname cfg.baseURL with
  | none => none
  | some dom => some (dom, initSt cfg)

/-! ## Phase predicates and counting -/

/-- Task is past the visited test-and-set but has not yet appended its page:
it is the unique claimant of its canonical URL. -/
def isOwner (t : Task) : Bool :=
  match t.phase with
  | .waiting => true
  | .fetching => true
  | .appending _ => true
  | _ => false

/-- Task holds a semaphore slot (acquired at line 88, released by the
deferred pop when `crawlPage` returns). -/
def isHolder (t : Task) : Bool :=
  match t.phase with
  | .fetching => true
  | .appending _ => true
  | .scanning _ _ => true
  | .joining _ => true
  | _ => false

/-- Task has passed the test-and-set but its fetch step has not run yet. -/
def preFetch (t : Task) : Bool :=
  match t.phase with
  | .waiting => true
  | .fetching => true
  | _ => false

/-- Task has won its visited test-and-set. -/
def pastEntry (t : Task) : Bool :=
  match t.phase with
  | .entry => false
  | _ => true

/-- Task's HTTP round trip is in flight right now. -/
def isFetching (t : Task) : Bool :=
  match t.phase with
  | .fetching => true
  | _ => false

/-- Task has appended its page (it is scanning anchors or joining). -/
def isDone (t : Task) : Bool :=
  match t.phase with
  | .scanning _ _ => true
  | .joining _ => true
  | _ => false

/-- Number of pages recorded for canonical URL `u`. -/
def pagesAt (s : St) (u : String) : Nat :=
  s.pages.countP (fun p => p.URL == u)

/-- Number of live claimant tasks of canonical URL `u`. -/
def ownersAt (s : St) (u : String) : Nat :=
  s.tasks.countP (fun t => isOwner t && (normalizeURL t.url == u))

/-- Number of live tasks past the test-and-set whose canonical URL is `u`. -/
def pastAt (s : St) (u : String) : Nat :=
  s.tasks.countP (fun t => pastEntry t && (normalizeURL t.url == u))

/-- Number of live tasks at canonical URL `u` whose fetch has not run. -/
def preAt (s : St) (u : String) : Nat :=
  s.tasks.countP (fun t => preFetch t && (normalizeURL t.url == u))

theorem countP_split {α : Type} (p : α → Bool) (l₁ l₂ : List α) (t : α) :
    List.countP p (l₁ ++ t :: l₂)
      = List.countP p (l₁ ++ l₂) + List.countP p [t] := by
  simp only [List.countP_append, List.countP_cons, List.countP_nil]
  omega

theorem mem_split_iff {α : Type} {x t : α} {l₁ l₂ : List α} :
    x ∈ l₁ ++ t :: l₂ ↔ x ∈ l₁ ++ l₂ ∨ x = t := by
  simp only [List.mem_append, List.mem_cons]
  tauto

theorem mem_middle {α : Type} (t : α) (l₁ l₂ : List α) :
    t ∈ l₁ ++ t :: l₂ := by
  simp

theorem countP_le_countP {α : Type} (p q : α → Bool) (l : List α)
    (h : ∀ a, p a = true → q a = true) :
    List.countP p l ≤ List.countP q l := by
  induction l with
  | nil => simp
  | cons a l ih =>
    simp only [List.countP_cons]
    by_cases hp : p a = true
    · simp [hp, h a hp]; omega
    · have : p a = false := by revert hp; cases p a <;> simp
      simp [this]
      by_cases hq : q a = true
      · simp [hq]; omega
      · have : q a = false := by revert hq; cases q a <;> simp
        simp [this]; omega

theorem split_singleton {α : Type} {l₁ l₂ : List α} {t a : α}
    (h : l₁ ++ t :: l₂ = [a]) : l₁ = [] ∧ t = a ∧ l₂ = [] := by
  cases l₁ with
  | nil =>
    simp only [List.nil_append, List.cons.injEq] at h
    exact ⟨rfl, h.1, h.2⟩
  | cons b bs =>
    simp only [List.cons_append, List.cons.injEq] at h
    exact absurd h.2 (List.append_ne_nil_of_right_ne_nil bs (by simp))

/-! ## The crawl invariant -/

/-- Master safety invariant of the traversal, preserved by every `Step`.
The fields group into: uniqueness of URL claims (`uniq`, `visClosed`,
`fetchOnce`), depth bookkeeping (`rootData`, `childDepth`, `depthLe`,
`depthNonneg`, `pageDepth`, `pageZeroSeed`, `seedPageZero`), page/fetch
consistency (`pageFetch`, `appendOk`, `donePage`), seed ownership
(`seedOwner`, `seedVis`, `rootEntryInit`, `rootLive`, `rootFailFetch`),
semaphore accounting (`semCount`, `semLe`, `acqRel`), id freshness
(`idsLt`, `nextPos`) and the absent politeness delay (`waitsZero`). -/
structure Inv (cfg : Config) (env : Env) (s : St) : Prop where
  uniq : ∀ u : String, pagesAt s u + ownersAt s u ≤ 1
  visClosed : ∀ u : String, u ∉ s.visited →
    pagesAt s u = 0 ∧ pastAt s u = 0 ∧ s.fetched.count u = 0
  fetchOnce : ∀ u : String, s.fetched.count u + preAt s u ≤ 1
  rootData : ∀ t ∈ s.tasks, t.id = 0 → t.url = cfg.baseURL ∧ t.depth = 0
  childDepth : ∀ t ∈ s.tasks, t.id ≠ 0 → 1 ≤ t.depth
  depthLe : ∀ t ∈ s.tasks, pastEntry t = true → t.depth ≤ cfg.maxDepth
  depthNonneg : ∀ t ∈ s.tasks, 0 ≤ t.depth
  pageDepth : ∀ p ∈ s.pages, 0 ≤ p.Depth ∧ p.Depth ≤ cfg.maxDepth
  pageZeroSeed : ∀ p ∈ s.pages, p.Depth = 0 → p.URL = normalizeURL cfg.baseURL
  seedPageZero : ∀ p ∈ s.pages, p.URL = normalizeURL cfg.baseURL → p.Depth = 0
  pageFetch : ∀ p ∈ s.pages,
    ∃ r, env.fetch p.URL = some r ∧ p.Title = r.title ∧ p.Content = r.content
  appendOk : ∀ t ∈ s.tasks, ∀ r, t.phase = .appending r →
    env.fetch (normalizeURL t.url) = some r
  seedOwner : ∀ t ∈ s.tasks, pastEntry t = true →
    normalizeURL t.url = normalizeURL cfg.baseURL → t.id = 0
  seedVis : (∃ t ∈ s.tasks, t.id ≠ 0) → normalizeURL cfg.baseURL ∈ s.visited
  rootEntryInit : (∃ t ∈ s.tasks, t.id = 0 ∧ t.phase = .entry) → s = initSt cfg
  rootLive : (∃ t ∈ s.tasks, t.id = 0) ∨ s.rootFailed = true ∨
    (∃ p ∈ s.pages, p.URL = normalizeURL cfg.baseURL ∧ p.Depth = 0) ∨
    cfg.maxDepth < 0
  donePage : ∀ t ∈ s.tasks, isDone t = true →
    ∃ p ∈ s.pages, p.URL = normalizeURL t.url ∧ p.Depth = t.depth
  semCount : s.sem = s.tasks.countP isHolder
  semLe : s.sem ≤ maxConcurrentFetches
  acqRel : s.acquires = s.releases + s.tasks.countP isHolder
  rootFailFetch : s.rootFailed = true →
    env.fetch (normalizeURL cfg.baseURL) = none
  idsLt : ∀ t ∈ s.tasks, t.id < s.nextId
  nextPos : 1 ≤ s.nextId
  waitsZero : s.waits = 0

theorem inv_init (cfg : Config) (env : Env) : Inv cfg env (initSt cfg) := by
  refine ⟨?_, ?_, ?_, ?_, ?_, ?_, ?_, ?_, ?_, ?_, ?_, ?_, ?_, ?_, ?_, ?_,
    ?_, ?_, ?_, ?_, ?_, ?_, ?_, ?_⟩ <;>
    simp [initSt, pagesAt, ownersAt, pastAt, preAt, isOwner, isHolder,
      preFetch, pastEntry, isDone, List.countP_cons]

/-! ## Preservation of the invariant, one lemma per step constructor -/

theorem forall_removed {α : Type} {P : α → Prop} {l₁ l₂ : List α} {t : α}
    (h : ∀ x ∈ l₁ ++ t :: l₂, P x) : ∀ x ∈ l₁ ++ l₂, P x :=
  fun x hx => h x (mem_split_iff.2 (Or.inl hx))

theorem forall_updated {α : Type} {P : α → Prop} {l₁ l₂ : List α} {t u : α}
    (h : ∀ x ∈ l₁ ++ t :: l₂, P x) (hu : P u) : ∀ x ∈ l₁ ++ u :: l₂, P x := by
  intro x hx
  rcases mem_split_iff.1 hx with hx | rfl
  · exact h x (mem_split_iff.2 (Or.inl hx))
  · exact hu

theorem forall_appended {α : Type} {P : α → Prop} {L : List α} {n : α}
    (h : ∀ x ∈ L, P x) (hn : P n) : ∀ x ∈ L ++ [n], P x := by
  intro x hx
  rcases List.mem_append.1 hx with hx | hx
  · exact h x hx
  · rw [List.mem_singleton.1 hx]; exact hn

theorem inv_remove_entry (cfg : Config) (env : Env) {s : St}
    (inv : Inv cfg env s) (l₁ l₂ : List Task) (t : Task)
    (hts : s.tasks = l₁ ++ t :: l₂) (hph : t.phase = .entry)
    (hroot : t.id = 0 → s.rootFailed = true ∨
      (∃ p ∈ s.pages, p.URL = normalizeURL cfg.baseURL ∧ p.Depth = 0) ∨
      cfg.maxDepth < 0) :
    Inv cfg env { s with tasks := l₁ ++ l₂ } := by
  have hcount : ∀ p : Task → Bool,
      List.countP p (l₁ ++ l₂) + List.countP p [t]
        = List.countP p s.tasks := by
    intro p; rw [hts, countP_split]
  have hsub : ∀ (P : Task → Prop), (∀ x ∈ s.tasks, P x) → ∀ x ∈ l₁ ++ l₂, P x := by
    intro P h
    exact forall_removed (by rw [hts] at h; exact h)
  have hHoldC : List.countP isHolder (l₁ ++ l₂) = List.countP isHolder s.tasks := by
    have h := hcount isHolder
    have e : List.countP isHolder [t] = 0 := by
      simp [List.countP_cons, isHolder, hph]
    omega
  refine ⟨?_, ?_, ?_, ?_, ?_, ?_, ?_, ?_, ?_, ?_, ?_, ?_, ?_, ?_, ?_, ?_,
    ?_, ?_, ?_, ?_, ?_, ?_, ?_, ?_⟩
  · intro u
    have h1 := inv.uniq u
    have h2 := hcount (fun x => isOwner x && (normalizeURL x.url == u))
    unfold pagesAt ownersAt at *
    dsimp only at *
    omega
  · intro u hu
    have h1 := inv.visClosed u hu
    have h2 := hcount (fun x => pastEntry x && (normalizeURL x.url == u))
    unfold pagesAt pastAt at *
    dsimp only at *
    omega
  · intro u
    have h1 := inv.fetchOnce u
    have h2 := hcount (fun x => preFetch x && (normalizeURL x.url == u))
    unfold preAt at *
    dsimp only at *
    omega
  · exact hsub _ inv.rootData
  · exact hsub _ inv.childDepth
  · exact hsub _ inv.depthLe
  · exact hsub _ inv.depthNonneg
  · exact inv.pageDepth
  · exact inv.pageZeroSeed
  · exact inv.seedPageZero
  · exact inv.pageFetch
  · exact hsub _ inv.appendOk
  · exact hsub _ inv.seedOwner
  · intro hex
    rcases hex with ⟨x, hx, hxid⟩
    exact inv.seedVis ⟨x, by rw [hts]; exact mem_split_iff.2 (Or.inl hx), hxid⟩
  · intro hex
    rcases hex with ⟨x, hx, hxid, hxph⟩
    have hxs : x ∈ s.tasks := by rw [hts]; exact mem_split_iff.2 (Or.inl hx)
    have hinit := inv.rootEntryInit ⟨x, hxs, hxid, hxph⟩
    have htasks : s.tasks = [⟨0, cfg.baseURL, 0, .entry⟩] := by
      rw [hinit]; rfl
    rw [hts] at htasks
    obtain ⟨he1, _, he2⟩ := split_singleton htasks
    rw [he1, he2] at hx
    exact absurd hx (by simp)
  · by_cases hid : t.id = 0
    · rcases hroot hid with hr | hr | hr
      · exact Or.inr (Or.inl hr)
      · exact Or.inr (Or.inr (Or.inl hr))
      · exact Or.inr (Or.inr (Or.inr hr))
    · rcases inv.rootLive with ⟨x, hx, hxid⟩ | hr | hr | hr
      · refine Or.inl ⟨x, ?_, hxid⟩
        rw [hts] at hx
        rcases mem_split_iff.1 hx with hx | rfl
        · exact hx
        · exact absurd hxid hid
      · exact Or.inr (Or.inl hr)
      · exact Or.inr (Or.inr (Or.inl hr))
      · exact Or.inr (Or.inr (Or.inr hr))
  · exact hsub _ inv.donePage
  · exact inv.semCount.trans hHoldC.symm
  · exact inv.semLe
  · exact inv.acqRel.trans (by rw [hHoldC])
  · exact inv.rootFailFetch
  · exact hsub _ inv.idsLt
  · exact inv.nextPos
  · exact inv.waitsZero


theorem inv_entryWins (cfg : Config) (env : Env) {s : St}
    (inv : Inv cfg env s) (l₁ l₂ : List Task) (t : Task)
    (hts : s.tasks = l₁ ++ t :: l₂) (hph : t.phase = .entry)
    (hd : t.depth ≤ cfg.maxDepth) (hv : normalizeURL t.url ∉ s.visited) :
    Inv cfg env
      { s with tasks := l₁ ++ { t with phase := .waiting } :: l₂,
               visited := normalizeURL t.url :: s.visited } := by
  have hcount : ∀ p : Task → Bool,
      List.countP p (l₁ ++ l₂) + List.countP p [t]
        = List.countP p s.tasks := by
    intro p; rw [hts, countP_split]
  have hsplit : ∀ p : Task → Bool,
      List.countP p (l₁ ++ { t with phase := Phase.waiting } :: l₂)
        = List.countP p (l₁ ++ l₂)
          + List.countP p [{ t with phase := Phase.waiting }] :=
    fun p => countP_split p l₁ l₂ _
  have hvc := inv.visClosed (normalizeURL t.url) hv
  have hpast0 : List.countP
      (fun x => pastEntry x && (normalizeURL x.url == normalizeURL t.url))
      (l₁ ++ l₂) = 0 := by
    have h := hcount
      (fun x => pastEntry x && (normalizeURL x.url == normalizeURL t.url))
    have hu := inv.visClosed (normalizeURL t.url) hv
    unfold pastAt at hu
    omega
  have hmemT : t ∈ s.tasks := by rw [hts]; exact mem_middle t l₁ l₂
  refine ⟨?_, ?_, ?_, ?_, ?_, ?_, ?_, ?_, ?_, ?_, ?_, ?_, ?_, ?_, ?_, ?_,
    ?_, ?_, ?_, ?_, ?_, ?_, ?_, ?_⟩
  · intro u
    have h1 := inv.uniq u
    have h2 := hcount (fun x => isOwner x && (normalizeURL x.url == u))
    have h3 := hsplit (fun x => isOwner x && (normalizeURL x.url == u))
    by_cases hu : normalizeURL t.url = u
    · subst hu
      have eT : List.countP
          (fun x => isOwner x && (normalizeURL x.url == normalizeURL t.url))
          [{ t with phase := Phase.waiting }] = 1 := by
        simp [List.countP_cons, isOwner]
      have hOwnLe : List.countP
          (fun x => isOwner x && (normalizeURL x.url == normalizeURL t.url))
          (l₁ ++ l₂) ≤ List.countP
          (fun x => pastEntry x && (normalizeURL x.url == normalizeURL t.url))
          (l₁ ++ l₂) := by
        refine countP_le_countP _ _ _ ?_
        intro a ha
        have ha1 := Bool.and_elim_left ha
        have ha2 := Bool.and_elim_right ha
        have hpe : pastEntry a = true := by
          revert ha1; unfold isOwner pastEntry; cases a.phase <;> simp
        simp [hpe, ha2]
      unfold pagesAt ownersAt at *
      dsimp only at *
      omega
    · have eT : List.countP
          (fun x => isOwner x && (normalizeURL x.url == u))
          [{ t with phase := Phase.waiting }] = 0 := by
        simp [List.countP_cons, isOwner, hu]
      unfold pagesAt ownersAt at *
      dsimp only at *
      omega
  · intro u hu
    have hune : u ≠ normalizeURL t.url := by
      intro h
      exact hu (by rw [h]; exact List.mem_cons_self _ _)
    have hus : u ∉ s.visited := fun h => hu (List.mem_cons_of_mem _ h)
    have h1 := inv.visClosed u hus
    have h2 := hcount (fun x => pastEntry x && (normalizeURL x.url == u))
    have h3 := hsplit (fun x => pastEntry x && (normalizeURL x.url == u))
    have eT : List.countP
        (fun x => pastEntry x && (normalizeURL x.url == u))
        [{ t with phase := Phase.waiting }] = 0 := by
      simp [List.countP_cons, pastEntry, Ne.symm hune]
    unfold pagesAt pastAt at *
    dsimp only at *
    omega
  · intro u
    have h1 := inv.fetchOnce u
    have h2 := hcount (fun x => preFetch x && (normalizeURL x.url == u))
    have h3 := hsplit (fun x => preFetch x && (normalizeURL x.url == u))
    by_cases hu : normalizeURL t.url = u
    · subst hu
      have eT : List.countP
          (fun x => preFetch x && (normalizeURL x.url == normalizeURL t.url))
          [{ t with phase := Phase.waiting }] = 1 := by
        simp [List.countP_cons, preFetch]
      have hPreLe : List.countP
          (fun x => preFetch x && (normalizeURL x.url == normalizeURL t.url))
          (l₁ ++ l₂) ≤ List.countP
          (fun x => pastEntry x && (normalizeURL x.url == normalizeURL t.url))
          (l₁ ++ l₂) := by
        refine countP_le_countP _ _ _ ?_
        intro a ha
        have ha1 := Bool.and_elim_left ha
        have ha2 := Bool.and_elim_right ha
        have hpe : pastEntry a = true := by
          revert ha1; unfold preFetch pastEntry; cases a.phase <;> simp
        simp [hpe, ha2]
      have hfet := hvc.2.2
      unfold preAt at *
      dsimp only at *
      omega
    · have eT : List.countP
          (fun x => preFetch x && (normalizeURL x.url == u))
          [{ t with phase := Phase.waiting }] = 0 := by
        simp [List.countP_cons, preFetch, hu]
      unfold preAt at *
      dsimp only at *
      omega
  · have h := inv.rootData
    rw [hts] at h
    dsimp only
    exact forall_updated h (fun hid => h t (mem_middle t l₁ l₂) hid)
  · have h := inv.childDepth
    rw [hts] at h
    dsimp only
    exact forall_updated h (fun hid => h t (mem_middle t l₁ l₂) hid)
  · have h := inv.depthLe
    rw [hts] at h
    dsimp only
    exact forall_updated h (fun _ => hd)
  · have h := inv.depthNonneg
    rw [hts] at h
    dsimp only
    exact forall_updated h (h t (mem_middle t l₁ l₂))
  · exact inv.pageDepth
  · exact inv.pageZeroSeed
  · exact inv.seedPageZero
  · exact inv.pageFetch
  · have h := inv.appendOk
    rw [hts] at h
    dsimp only
    refine forall_updated h ?_
    intro r hr
    exact absurd hr (by simp)
  · have h := inv.seedOwner
    rw [hts] at h
    dsimp only
    refine forall_updated h ?_
    intro _ hseed
    by_contra hid
    have hvis : normalizeURL cfg.baseURL ∈ s.visited :=
      inv.seedVis ⟨t, hmemT, hid⟩
    rw [← hseed] at hvis
    exact hv hvis
  · intro hex
    rcases hex with ⟨x, hx, hxid⟩
    have hex2 : ∃ x ∈ s.tasks, x.id ≠ 0 := by
      rcases mem_split_iff.1 hx with hx | rfl
      · exact ⟨x, by rw [hts]; exact mem_split_iff.2 (Or.inl hx), hxid⟩
      · exact ⟨t, hmemT, hxid⟩
    exact List.mem_cons_of_mem _ (inv.seedVis hex2)
  · intro hex
    rcases hex with ⟨x, hx, hxid, hxph⟩
    rcases mem_split_iff.1 hx with hx | rfl
    · have hxs : x ∈ s.tasks := by rw [hts]; exact mem_split_iff.2 (Or.inl hx)
      have hinit := inv.rootEntryInit ⟨x, hxs, hxid, hxph⟩
      have htasks : s.tasks = [⟨0, cfg.baseURL, 0, .entry⟩] := by
        rw [hinit]; rfl
      rw [hts] at htasks
      obtain ⟨he1, _, he2⟩ := split_singleton htasks
      rw [he1, he2] at hx
      exact absurd hx (by simp)
    · exact absurd hxph (by simp)
  · rcases inv.rootLive with ⟨x, hx, hxid⟩ | hr | hr | hr
    · rw [hts] at hx
      rcases mem_split_iff.1 hx with hx | rfl
      · exact Or.inl ⟨x, mem_split_iff.2 (Or.inl hx), hxid⟩
      · exact Or.inl ⟨_, mem_middle _ l₁ l₂, hxid⟩
    · exact Or.inr (Or.inl hr)
    · exact Or.inr (Or.inr (Or.inl hr))
    · exact Or.inr (Or.inr (Or.inr hr))
  · have h := inv.donePage
    rw [hts] at h
    dsimp only
    refine forall_updated h ?_
    intro hdone
    exact absurd hdone (by simp [isDone])
  · have h2 := hcount isHolder
    have h3 := hsplit isHolder
    have e1 : List.countP isHolder [t] = 0 := by
      simp [List.countP_cons, isHolder, hph]
    have e2 : List.countP isHolder [{ t with phase := Phase.waiting }] = 0 := by
      simp [List.countP_cons, isHolder]
    have h := inv.semCount
    dsimp only
    omega
  · exact inv.semLe
  · have h2 := hcount isHolder
    have h3 := hsplit isHolder
    have e1 : List.countP isHolder [t] = 0 := by
      simp [List.countP_cons, isHolder, hph]
    have e2 : List.countP isHolder [{ t with phase := Phase.waiting }] = 0 := by
      simp [List.countP_cons, isHolder]
    have h := inv.acqRel
    dsimp only
    omega
  · exact inv.rootFailFetch
  · have h := inv.idsLt
    rw [hts] at h
    dsimp only
    exact forall_updated h (h t (mem_middle t l₁ l₂))
  · exact inv.nextPos
  · exact inv.waitsZero

theorem pastEntry_visited (cfg : Config) (env : Env) {s : St}
    (inv : Inv cfg env s) {l₁ l₂ : List Task} {t : Task}
    (hts : s.tasks = l₁ ++ t :: l₂) (hpe : pastEntry t = true) :
    normalizeURL t.url ∈ s.visited := by
  by_contra hv
  have h := (inv.visClosed _ hv).2.1
  unfold pastAt at h
  rw [hts, countP_split] at h
  have e : List.countP
      (fun x => pastEntry x && (normalizeURL x.url == normalizeURL t.url))
      [t] = 1 := by
    simp [List.countP_cons, hpe]
  omega

theorem rootEntryInit_aux (cfg : Config) (env : Env) {s : St}
    (inv : Inv cfg env s) {l₁ l₂ : List Task} {t : Task}
    (hts : s.tasks = l₁ ++ t :: l₂) {x : Task}
    (hx : x ∈ l₁ ++ l₂) (hxid : x.id = 0) (hxph : x.phase = Phase.entry) :
    False := by
  have hxs : x ∈ s.tasks := by rw [hts]; exact mem_split_iff.2 (Or.inl hx)
  have hinit := inv.rootEntryInit ⟨x, hxs, hxid, hxph⟩
  have htasks : s.tasks = [⟨0, cfg.baseURL, 0, .entry⟩] := by
    rw [hinit]; rfl
  rw [hts] at htasks
  obtain ⟨he1, _, he2⟩ := split_singleton htasks
  rw [he1, he2] at hx
  exact absurd hx (by simp)

theorem rootLive_update (cfg : Config) (env : Env) {s : St}
    (inv : Inv cfg env s) {l₁ l₂ : List Task} {t : Task} (u : Task)
    (hts : s.tasks = l₁ ++ t :: l₂) (hid : u.id = t.id)
    {pg : List Page} (hpg : ∀ p ∈ s.pages, p ∈ pg)
    {rf : Bool} (hrf : s.rootFailed = true → rf = true) :
    (∃ x ∈ l₁ ++ u :: l₂, x.id = 0) ∨ rf = true ∨
      (∃ p ∈ pg, p.URL = normalizeURL cfg.baseURL ∧ p.Depth = 0) ∨
      cfg.maxDepth < 0 := by
  rcases inv.rootLive with ⟨x, hx, hxid⟩ | hr | ⟨p, hp, hp2⟩ | hr
  · rw [hts] at hx
    rcases mem_split_iff.1 hx with hx | rfl
    · exact Or.inl ⟨x, mem_split_iff.2 (Or.inl hx), hxid⟩
    · exact Or.inl ⟨u, mem_middle u l₁ l₂, by rw [hid]; exact hxid⟩
  · exact Or.inr (Or.inl (hrf hr))
  · exact Or.inr (Or.inr (Or.inl ⟨p, hpg p hp, hp2⟩))
  · exact Or.inr (Or.inr (Or.inr hr))

theorem inv_acquire (cfg : Config) (env : Env) {s : St}
    (inv : Inv cfg env s) (l₁ l₂ : List Task) (t : Task)
    (hts : s.tasks = l₁ ++ t :: l₂) (hph : t.phase = .waiting)
    (hsem : s.sem < maxConcurrentFetches) :
    Inv cfg env
      { s with tasks := l₁ ++ { t with phase := .fetching } :: l₂,
               sem := s.sem + 1, acquires := s.acquires + 1 } := by
  have hcount : ∀ p : Task → Bool,
      List.countP p (l₁ ++ l₂) + List.countP p [t]
        = List.countP p s.tasks := by
    intro p; rw [hts, countP_split]
  have hsplit : ∀ p : Task → Bool,
      List.countP p (l₁ ++ { t with phase := Phase.fetching } :: l₂)
        = List.countP p (l₁ ++ l₂)
          + List.countP p [{ t with phase := Phase.fetching }] :=
    fun p => countP_split p l₁ l₂ _
  have hmemT : t ∈ s.tasks := by rw [hts]; exact mem_middle t l₁ l₂
  have hpe : pastEntry t = true := by simp [pastEntry, hph]
  refine ⟨?_, ?_, ?_, ?_, ?_, ?_, ?_, ?_, ?_, ?_, ?_, ?_, ?_, ?_, ?_, ?_,
    ?_, ?_, ?_, ?_, ?_, ?_, ?_, ?_⟩
  · intro u
    have h1 := inv.uniq u
    have h2 := hcount (fun x => isOwner x && (normalizeURL x.url == u))
    have h3 := hsplit (fun x => isOwner x && (normalizeURL x.url == u))
    have e : List.countP (fun x => isOwner x && (normalizeURL x.url == u)) [t]
        = List.countP (fun x => isOwner x && (normalizeURL x.url == u))
          [{ t with phase := Phase.fetching }] := by
      simp [List.countP_cons, isOwner, hph]
    unfold pagesAt ownersAt at *
    dsimp only at *
    omega
  · intro u hu
    have h1 := inv.visClosed u hu
    have h2 := hcount (fun x => pastEntry x && (normalizeURL x.url == u))
    have h3 := hsplit (fun x => pastEntry x && (normalizeURL x.url == u))
    have e : List.countP (fun x => pastEntry x && (normalizeURL x.url == u)) [t]
        = List.countP (fun x => pastEntry x && (normalizeURL x.url == u))
          [{ t with phase := Phase.fetching }] := by
      simp [List.countP_cons, pastEntry, hph]
    unfold pagesAt pastAt at *
    dsimp only at *
    omega
  · intro u
    have h1 := inv.fetchOnce u
    have h2 := hcount (fun x => preFetch x && (normalizeURL x.url == u))
    have h3 := hsplit (fun x => preFetch x && (normalizeURL x.url == u))
    have e : List.countP (fun x => preFetch x && (normalizeURL x.url == u)) [t]
        = List.countP (fun x => preFetch x && (normalizeURL x.url == u))
          [{ t with phase := Phase.fetching }] := by
      simp [List.countP_cons, preFetch, hph]
    unfold preAt at *
    dsimp only at *
    omega
  · have h := inv.rootData
    rw [hts] at h
    dsimp only
    exact forall_updated h (fun hid => h t (mem_middle t l₁ l₂) hid)
  · have h := inv.childDepth
    rw [hts] at h
    dsimp only
    exact forall_updated h (fun hid => h t (mem_middle t l₁ l₂) hid)
  · have h := inv.depthLe
    rw [hts] at h
    dsimp only
    exact forall_updated h (fun _ => h t (mem_middle t l₁ l₂) hpe)
  · have h := inv.depthNonneg
    rw [hts] at h
    dsimp only
    exact forall_updated h (h t (mem_middle t l₁ l₂))
  · exact inv.pageDepth
  · exact inv.pageZeroSeed
  · exact inv.seedPageZero
  · exact inv.pageFetch
  · have h := inv.appendOk
    rw [hts] at h
    dsimp only
    refine forall_updated h ?_
    intro r hr
    exact absurd hr (by simp)
  · have h := inv.seedOwner
    rw [hts] at h
    dsimp only
    refine forall_updated h ?_
    intro _ hseed
    exact inv.seedOwner t hmemT hpe hseed
  · intro hex
    rcases hex with ⟨x, hx, hxid⟩
    refine inv.seedVis ?_
    rcases mem_split_iff.1 hx with hx | rfl
    · exact ⟨x, by rw [hts]; exact mem_split_iff.2 (Or.inl hx), hxid⟩
    · exact ⟨t, hmemT, hxid⟩
  · intro hex
    rcases hex with ⟨x, hx, hxid, hxph⟩
    rcases mem_split_iff.1 hx with hx | rfl
    · exact absurd (rootEntryInit_aux cfg env inv hts hx hxid hxph) (fun h => h)
    · exact absurd hxph (by simp)
  · dsimp only
    exact rootLive_update cfg env inv { t with phase := Phase.fetching } hts
      rfl (fun p hp => hp) (fun h => h)
  · have h := inv.donePage
    rw [hts] at h
    dsimp only
    refine forall_updated h ?_
    intro hdone
    exact absurd hdone (by simp [isDone])
  · have h2 := hcount isHolder
    have h3 := hsplit isHolder
    have e1 : List.countP isHolder [t] = 0 := by
      simp [List.countP_cons, isHolder, hph]
    have e2 : List.countP isHolder [{ t with phase := Phase.fetching }] = 1 := by
      simp [List.countP_cons, isHolder]
    have h := inv.semCount
    dsimp only
    omega
  · have h := hsem
    unfold maxConcurrentFetches at *
    dsimp only
    omega
  · have h2 := hcount isHolder
    have h3 := hsplit isHolder
    have e1 : List.countP isHolder [t] = 0 := by
      simp [List.countP_cons, isHolder, hph]
    have e2 : List.countP isHolder [{ t with phase := Phase.fetching }] = 1 := by
      simp [List.countP_cons, isHolder]
    have h := inv.acqRel
    dsimp only
    omega
  · exact inv.rootFailFetch
  · have h := inv.idsLt
    rw [hts] at h
    dsimp only
    exact forall_updated h (h t (mem_middle t l₁ l₂))
  · exact inv.nextPos
  · exact inv.waitsZero

theorem inv_fetchOk (cfg : Config) (env : Env) {s : St}
    (inv : Inv cfg env s) (l₁ l₂ : List Task) (t : Task) (r : FetchOk)
    (hts : s.tasks = l₁ ++ t :: l₂) (hph : t.phase = .fetching)
    (hf : env.fetch (normalizeURL t.url) = some r) :
    Inv cfg env
      { s with tasks := l₁ ++ { t with phase := .appending r } :: l₂,
               fetched := s.fetched ++ [normalizeURL t.url] } := by
  have hcount : ∀ p : Task → Bool,
      List.countP p (l₁ ++ l₂) + List.countP p [t]
        = List.countP p s.tasks := by
    intro p; rw [hts, countP_split]
  have hsplit : ∀ p : Task → Bool,
      List.countP p (l₁ ++ { t with phase := Phase.appending r } :: l₂)
        = List.countP p (l₁ ++ l₂)
          + List.countP p [{ t with phase := Phase.appending r }] :=
    fun p => countP_split p l₁ l₂ _
  have hmemT : t ∈ s.tasks := by rw [hts]; exact mem_middle t l₁ l₂
  have hpe : pastEntry t = true := by simp [pastEntry, hph]
  have hvisT : normalizeURL t.url ∈ s.visited :=
    pastEntry_visited cfg env inv hts hpe
  have hfc : ∀ u : String,
      List.count u (s.fetched ++ [normalizeURL t.url])
        = List.count u s.fetched + List.count u [normalizeURL t.url] := by
    intro u; simp [List.count_append]
  refine ⟨?_, ?_, ?_, ?_, ?_, ?_, ?_, ?_, ?_, ?_, ?_, ?_, ?_, ?_, ?_, ?_,
    ?_, ?_, ?_, ?_, ?_, ?_, ?_, ?_⟩
  · intro u
    have h1 := inv.uniq u
    have h2 := hcount (fun x => isOwner x && (normalizeURL x.url == u))
    have h3 := hsplit (fun x => isOwner x && (normalizeURL x.url == u))
    have e : List.countP (fun x => isOwner x && (normalizeURL x.url == u)) [t]
        = List.countP (fun x => isOwner x && (normalizeURL x.url == u))
          [{ t with phase := Phase.appending r }] := by
      simp [List.countP_cons, isOwner, hph]
    unfold pagesAt ownersAt at *
    dsimp only at *
    omega
  · intro u hu
    have hune : u ≠ normalizeURL t.url := fun h => hu (h ▸ hvisT)
    have h1 := inv.visClosed u hu
    have h2 := hcount (fun x => pastEntry x && (normalizeURL x.url == u))
    have h3 := hsplit (fun x => pastEntry x && (normalizeURL x.url == u))
    have e : List.countP (fun x => pastEntry x && (normalizeURL x.url == u)) [t]
        = List.countP (fun x => pastEntry x && (normalizeURL x.url == u))
          [{ t with phase := Phase.appending r }] := by
      simp [List.countP_cons, pastEntry, hph]
    have e2 : List.count u [normalizeURL t.url] = 0 := by
      simp [List.count_cons, Ne.symm hune]
    have h4 := hfc u
    unfold pagesAt pastAt at *
    dsimp only at *
    omega
  · intro u
    have h1 := inv.fetchOnce u
    have h2 := hcount (fun x => preFetch x && (normalizeURL x.url == u))
    have h3 := hsplit (fun x => preFetch x && (normalizeURL x.url == u))
    have e : List.countP (fun x => preFetch x && (normalizeURL x.url == u)) [t]
        = List.count u [normalizeURL t.url] := by
      simp [List.countP_cons, List.count_cons, preFetch, hph]
    have e2 : List.countP (fun x => preFetch x && (normalizeURL x.url == u))
        [{ t with phase := Phase.appending r }] = 0 := by
      simp [List.countP_cons, preFetch]
    have h4 := hfc u
    unfold preAt at *
    dsimp only at *
    omega
  · have h := inv.rootData
    rw [hts] at h
    dsimp only
    exact forall_updated h (fun hid => h t (mem_middle t l₁ l₂) hid)
  · have h := inv.childDepth
    rw [hts] at h
    dsimp only
    exact forall_updated h (fun hid => h t (mem_middle t l₁ l₂) hid)
  · have h := inv.depthLe
    rw [hts] at h
    dsimp only
    exact forall_updated h (fun _ => h t (mem_middle t l₁ l₂) hpe)
  · have h := inv.depthNonneg
    rw [hts] at h
    dsimp only
    exact forall_updated h (h t (mem_middle t l₁ l₂))
  · exact inv.pageDepth
  · exact inv.pageZeroSeed
  · exact inv.seedPageZero
  · exact inv.pageFetch
  · have h := inv.appendOk
    rw [hts] at h
    dsimp only
    refine forall_updated h ?_
    intro r2 hr2
    have : r = r2 := by
      have := hr2
      simp only [Phase.appending.injEq] at this
      exact this
    rw [← this]
    exact hf
  · have h := inv.seedOwner
    rw [hts] at h
    dsimp only
    refine forall_updated h ?_
    intro _ hseed
    exact inv.seedOwner t hmemT hpe hseed
  · intro hex
    rcases hex with ⟨x, hx, hxid⟩
    refine inv.seedVis ?_
    rcases mem_split_iff.1 hx with hx | rfl
    · exact ⟨x, by rw [hts]; exact mem_split_iff.2 (Or.inl hx), hxid⟩
    · exact ⟨t, hmemT, hxid⟩
  · intro hex
    rcases hex with ⟨x, hx, hxid, hxph⟩
    rcases mem_split_iff.1 hx with hx | rfl
    · exact absurd (rootEntryInit_aux cfg env inv hts hx hxid hxph) (fun h => h)
    · exact absurd hxph (by simp)
  · dsimp only
    exact rootLive_update cfg env inv { t with phase := Phase.appending r } hts
      rfl (fun p hp => hp) (fun h => h)
  · have h := inv.donePage
    rw [hts] at h
    dsimp only
    refine forall_updated h ?_
    intro hdone
    exact absurd hdone (by simp [isDone])
  · have h2 := hcount isHolder
    have h3 := hsplit isHolder
    have e1 : List.countP isHolder [t] = 1 := by
      simp [List.countP_cons, isHolder, hph]
    have e2 : List.countP isHolder
        [{ t with phase := Phase.appending r }] = 1 := by
      simp [List.countP_cons, isHolder]
    have h := inv.semCount
    dsimp only
    omega
  · exact inv.semLe
  · have h2 := hcount isHolder
    have h3 := hsplit isHolder
    have e1 : List.countP isHolder [t] = 1 := by
      simp [List.countP_cons, isHolder, hph]
    have e2 : List.countP isHolder
        [{ t with phase := Phase.appending r }] = 1 := by
      simp [List.countP_cons, isHolder]
    have h := inv.acqRel
    dsimp only
    omega
  · exact inv.rootFailFetch
  · have h := inv.idsLt
    rw [hts] at h
    dsimp only
    exact forall_updated h (h t (mem_middle t l₁ l₂))
  · exact inv.nextPos
  · exact inv.waitsZero

theorem inv_fetchFail (cfg : Config) (env : Env) {s : St}
    (inv : Inv cfg env s) (l₁ l₂ : List Task) (t : Task)
    (hts : s.tasks = l₁ ++ t :: l₂) (hph : t.phase = .fetching)
    (hf : env.fetch (normalizeURL t.url) = none) :
    Inv cfg env
      { s with tasks := l₁ ++ l₂, sem := s.sem - 1,
               releases := s.releases + 1,
               fetched := s.fetched ++ [normalizeURL t.url],
               rootFailed := s.rootFailed || t.id == 0 } := by
  have hcount : ∀ p : Task → Bool,
      List.countP p (l₁ ++ l₂) + List.countP p [t]
        = List.countP p s.tasks := by
    intro p; rw [hts, countP_split]
  have hmemT : t ∈ s.tasks := by rw [hts]; exact mem_middle t l₁ l₂
  have hpe : pastEntry t = true := by simp [pastEntry, hph]
  have hvisT : normalizeURL t.url ∈ s.visited :=
    pastEntry_visited cfg env inv hts hpe
  have hsub : ∀ (P : Task → Prop), (∀ x ∈ s.tasks, P x) →
      ∀ x ∈ l₁ ++ l₂, P x := by
    intro P h
    exact forall_removed (by rw [hts] at h; exact h)
  refine ⟨?_, ?_, ?_, ?_, ?_, ?_, ?_, ?_, ?_, ?_, ?_, ?_, ?_, ?_, ?_, ?_,
    ?_, ?_, ?_, ?_, ?_, ?_, ?_, ?_⟩
  · intro u
    have h1 := inv.uniq u
    have h2 := hcount (fun x => isOwner x && (normalizeURL x.url == u))
    unfold pagesAt ownersAt at *
    dsimp only at *
    omega
  · intro u hu
    have hune : u ≠ normalizeURL t.url := fun h => hu (h ▸ hvisT)
    have h1 := inv.visClosed u hu
    have h2 := hcount (fun x => pastEntry x && (normalizeURL x.url == u))
    have e2 : List.count u [normalizeURL t.url] = 0 := by
      simp [List.count_cons, Ne.symm hune]
    have h4 : List.count u (s.fetched ++ [normalizeURL t.url])
        = List.count u s.fetched + List.count u [normalizeURL t.url] := by
      simp [List.count_append]
    unfold pagesAt pastAt at *
    dsimp only at *
    omega
  · intro u
    have h1 := inv.fetchOnce u
    have h2 := hcount (fun x => preFetch x && (normalizeURL x.url == u))
    have e : List.countP (fun x => preFetch x && (normalizeURL x.url == u)) [t]
        = List.count u [normalizeURL t.url] := by
      simp [List.countP_cons, List.count_cons, preFetch, hph]
    have h4 : List.count u (s.fetched ++ [normalizeURL t.url])
        = List.count u s.fetched + List.count u [normalizeURL t.url] := by
      simp [List.count_append]
    unfold preAt at *
    dsimp only at *
    omega
  · exact hsub _ inv.rootData
  · exact hsub _ inv.childDepth
  · exact hsub _ inv.depthLe
  · exact hsub _ inv.depthNonneg
  · exact inv.pageDepth
  · exact inv.pageZeroSeed
  · exact inv.seedPageZero
  · exact inv.pageFetch
  · exact hsub _ inv.appendOk
  · exact hsub _ inv.seedOwner
  · intro hex
    rcases hex with ⟨x, hx, hxid⟩
    exact inv.seedVis ⟨x, by rw [hts]; exact mem_split_iff.2 (Or.inl hx), hxid⟩
  · intro hex
    rcases hex with ⟨x, hx, hxid, hxph⟩
    exact absurd (rootEntryInit_aux cfg env inv hts hx hxid hxph) (fun h => h)
  · by_cases hid : t.id = 0
    · refine Or.inr (Or.inl ?_)
      dsimp only
      simp [hid]
    · rcases inv.rootLive with ⟨x, hx, hxid⟩ | hr | ⟨p, hp, hp2⟩ | hr
      · rw [hts] at hx
        rcases mem_split_iff.1 hx with hx | rfl
        · exact Or.inl ⟨x, hx, hxid⟩
        · exact absurd hxid hid
      · refine Or.inr (Or.inl ?_)
        dsimp only
        simp [hr]
      · exact Or.inr (Or.inr (Or.inl ⟨p, hp, hp2⟩))
      · exact Or.inr (Or.inr (Or.inr hr))
  · exact hsub _ inv.donePage
  · have h2 := hcount isHolder
    have e1 : List.countP isHolder [t] = 1 := by
      simp [List.countP_cons, isHolder, hph]
    have h := inv.semCount
    dsimp only
    omega
  · have h := inv.semLe
    dsimp only
    omega
  · have h2 := hcount isHolder
    have e1 : List.countP isHolder [t] = 1 := by
      simp [List.countP_cons, isHolder, hph]
    have h := inv.acqRel
    dsimp only
    omega
  · intro hrf
    dsimp only at hrf
    rcases Bool.or_eq_true_iff.1 hrf with hrf | hrf
    · exact inv.rootFailFetch hrf
    · have hid : t.id = 0 := by
        exact eq_of_beq hrf
      have hurl := (inv.rootData t hmemT hid).1
      rw [← hurl]
      exact hf
  · exact hsub _ inv.idsLt
  · exact inv.nextPos
  · exact inv.waitsZero

theorem inv_append (cfg : Config) (env : Env) {s : St}
    (inv : Inv cfg env s) (l₁ l₂ : List Task) (t : Task) (r : FetchOk)
    (hts : s.tasks = l₁ ++ t :: l₂) (hph : t.phase = .appending r) :
    Inv cfg env
      { s with tasks := l₁ ++ { t with phase := .scanning r.links [] } :: l₂,
               pages := s.pages ++ [pageOf (normalizeURL t.url) r t.depth] } := by
  have hcount : ∀ p : Task → Bool,
      List.countP p (l₁ ++ l₂) + List.countP p [t]
        = List.countP p s.tasks := by
    intro p; rw [hts, countP_split]
  have hsplit : ∀ p : Task → Bool,
      List.countP p (l₁ ++ { t with phase := Phase.scanning r.links [] } :: l₂)
        = List.countP p (l₁ ++ l₂)
          + List.countP p [{ t with phase := Phase.scanning r.links [] }] :=
    fun p => countP_split p l₁ l₂ _
  have hpg : ∀ p : Page → Bool,
      List.countP p (s.pages ++ [pageOf (normalizeURL t.url) r t.depth])
        = List.countP p s.pages
          + List.countP p [pageOf (normalizeURL t.url) r t.depth] := by
    intro p; simp [List.countP_append]
  have hmemT : t ∈ s.tasks := by rw [hts]; exact mem_middle t l₁ l₂
  have hpe : pastEntry t = true := by simp [pastEntry, hph]
  have hvisT : normalizeURL t.url ∈ s.visited :=
    pastEntry_visited cfg env inv hts hpe
  refine ⟨?_, ?_, ?_, ?_, ?_, ?_, ?_, ?_, ?_, ?_, ?_, ?_, ?_, ?_, ?_, ?_,
    ?_, ?_, ?_, ?_, ?_, ?_, ?_, ?_⟩
  · intro u
    have h1 := inv.uniq u
    have h2 := hcount (fun x => isOwner x && (normalizeURL x.url == u))
    have h3 := hsplit (fun x => isOwner x && (normalizeURL x.url == u))
    have h4 := hpg (fun p => p.URL == u)
    have e : List.countP (fun x => isOwner x && (normalizeURL x.url == u)) [t]
        = List.countP (fun p => p.URL == u)
          [pageOf (normalizeURL t.url) r t.depth] := by
      simp [List.countP_cons, isOwner, hph, pageOf]
    have e2 : List.countP (fun x => isOwner x && (normalizeURL x.url == u))
        [{ t with phase := Phase.scanning r.links [] }] = 0 := by
      simp [List.countP_cons, isOwner]
    unfold pagesAt ownersAt at *
    dsimp only at *
    omega
  · intro u hu
    have hune : u ≠ normalizeURL t.url := fun h => hu (h ▸ hvisT)
    have h1 := inv.visClosed u hu
    have h2 := hcount (fun x => pastEntry x && (normalizeURL x.url == u))
    have h3 := hsplit (fun x => pastEntry x && (normalizeURL x.url == u))
    have h4 := hpg (fun p => p.URL == u)
    have e : List.countP (fun x => pastEntry x && (normalizeURL x.url == u)) [t]
        = List.countP (fun x => pastEntry x && (normalizeURL x.url == u))
          [{ t with phase := Phase.scanning r.links [] }] := by
      simp [List.countP_cons, pastEntry, hph]
    have e2 : List.countP (fun p => p.URL == u)
        [pageOf (normalizeURL t.url) r t.depth] = 0 := by
      simp [List.countP_cons, pageOf, Ne.symm hune]
    unfold pagesAt pastAt at *
    dsimp only at *
    omega
  · intro u
    have h1 := inv.fetchOnce u
    have h2 := hcount (fun x => preFetch x && (normalizeURL x.url == u))
    have h3 := hsplit (fun x => preFetch x && (normalizeURL x.url == u))
    have e : List.countP
        (fun x => preFetch x && (normalizeURL x.url == u)) [t] = 0 := by
      simp [List.countP_cons, preFetch, hph]
    have e2 : List.countP (fun x => preFetch x && (normalizeURL x.url == u))
        [{ t with phase := Phase.scanning r.links [] }] = 0 := by
      simp [List.countP_cons, preFetch]
    unfold preAt at *
    dsimp only at *
    omega
  · have h := inv.rootData
    rw [hts] at h
    dsimp only
    exact forall_updated h (fun hid => h t (mem_middle t l₁ l₂) hid)
  · have h := inv.childDepth
    rw [hts] at h
    dsimp only
    exact forall_updated h (fun hid => h t (mem_middle t l₁ l₂) hid)
  · have h := inv.depthLe
    rw [hts] at h
    dsimp only
    exact forall_updated h (fun _ => h t (mem_middle t l₁ l₂) hpe)
  · have h := inv.depthNonneg
    rw [hts] at h
    dsimp only
    exact forall_updated h (h t (mem_middle t l₁ l₂))
  · dsimp only
    refine forall_appended inv.pageDepth ?_
    exact ⟨inv.depthNonneg t hmemT, inv.depthLe t hmemT hpe⟩
  · dsimp only
    refine forall_appended inv.pageZeroSeed ?_
    intro hdep
    have hdept : t.depth = 0 := hdep
    have hid : t.id = 0 := by
      by_contra hid
      have := inv.childDepth t hmemT hid
      omega
    have hurl := (inv.rootData t hmemT hid).1
    show normalizeURL t.url = normalizeURL cfg.baseURL
    rw [hurl]
  · dsimp only
    refine forall_appended inv.seedPageZero ?_
    intro hurl
    have hseed : normalizeURL t.url = normalizeURL cfg.baseURL := hurl
    have hid := inv.seedOwner t hmemT hpe hseed
    exact (inv.rootData t hmemT hid).2
  · dsimp only
    refine forall_appended inv.pageFetch ?_
    exact ⟨r, inv.appendOk t hmemT r hph, rfl, rfl⟩
  · have h := inv.appendOk
    rw [hts] at h
    dsimp only
    refine forall_updated h ?_
    intro r2 hr2
    exact absurd hr2 (by simp)
  · have h := inv.seedOwner
    rw [hts] at h
    dsimp only
    refine forall_updated h ?_
    intro _ hseed
    exact inv.seedOwner t hmemT hpe hseed
  · intro hex
    rcases hex with ⟨x, hx, hxid⟩
    refine inv.seedVis ?_
    rcases mem_split_iff.1 hx with hx | rfl
    · exact ⟨x, by rw [hts]; exact mem_split_iff.2 (Or.inl hx), hxid⟩
    · exact ⟨t, hmemT, hxid⟩
  · intro hex
    rcases hex with ⟨x, hx, hxid, hxph⟩
    rcases mem_split_iff.1 hx with hx | rfl
    · exact absurd (rootEntryInit_aux cfg env inv hts hx hxid hxph) (fun h => h)
    · exact absurd hxph (by simp)
  · dsimp only
    exact rootLive_update cfg env inv
      { t with phase := Phase.scanning r.links [] } hts rfl
      (fun p hp => List.mem_append_left _ hp) (fun h => h)
  · have h := inv.donePage
    rw [hts] at h
    dsimp only
    have h2 : ∀ x ∈ l₁ ++ t :: l₂, isDone x = true →
        ∃ p ∈ s.pages ++ [pageOf (normalizeURL t.url) r t.depth],
          p.URL = normalizeURL x.url ∧ p.Depth = x.depth := by
      intro x hx hd
      obtain ⟨p, hp, hp2⟩ := h x hx hd
      exact ⟨p, List.mem_append_left _ hp, hp2⟩
    refine forall_updated h2 ?_
    intro _
    refine ⟨pageOf (normalizeURL t.url) r t.depth, ?_, rfl, rfl⟩
    exact List.mem_append_right _ (by simp)
  · have h2 := hcount isHolder
    have h3 := hsplit isHolder
    have e1 : List.countP isHolder [t] = 1 := by
      simp [List.countP_cons, isHolder, hph]
    have e2 : List.countP isHolder
        [{ t with phase := Phase.scanning r.links [] }] = 1 := by
      simp [List.countP_cons, isHolder]
    have h := inv.semCount
    dsimp only
    omega
  · exact inv.semLe
  · have h2 := hcount isHolder
    have h3 := hsplit isHolder
    have e1 : List.countP isHolder [t] = 1 := by
      simp [List.countP_cons, isHolder, hph]
    have e2 : List.countP isHolder
        [{ t with phase := Phase.scanning r.links [] }] = 1 := by
      simp [List.countP_cons, isHolder]
    have h := inv.acqRel
    dsimp only
    omega
  · exact inv.rootFailFetch
  · have h := inv.idsLt
    rw [hts] at h
    dsimp only
    exact forall_updated h (h t (mem_middle t l₁ l₂))
  · exact inv.nextPos
  · exact inv.waitsZero

theorem inv_scanlike (cfg : Config) (env : Env) {s : St}
    (inv : Inv cfg env s) (l₁ l₂ : List Task) (t : Task) (ph2 : Phase)
    (hts : s.tasks = l₁ ++ t :: l₂)
    (hOwn : isOwner t = false)
    (hOwn2 : isOwner { t with phase := ph2 } = false)
    (hPast : pastEntry t = true)
    (hPast2 : pastEntry { t with phase := ph2 } = true)
    (hPre : preFetch t = false)
    (hPre2 : preFetch { t with phase := ph2 } = false)
    (hHold : isHolder t = true)
    (hHold2 : isHolder { t with phase := ph2 } = true)
    (hDone : isDone t = true)
    (hApp2 : ∀ r : FetchOk, ph2 ≠ .appending r)
    (hEntry2 : ph2 ≠ .entry) :
    Inv cfg env { s with tasks := l₁ ++ { t with phase := ph2 } :: l₂ } := by
  have hcount : ∀ p : Task → Bool,
      List.countP p (l₁ ++ l₂) + List.countP p [t]
        = List.countP p s.tasks := by
    intro p; rw [hts, countP_split]
  have hsplit : ∀ p : Task → Bool,
      List.countP p (l₁ ++ { t with phase := ph2 } :: l₂)
        = List.countP p (l₁ ++ l₂) + List.countP p [{ t with phase := ph2 }] :=
    fun p => countP_split p l₁ l₂ _
  have hmemT : t ∈ s.tasks := by rw [hts]; exact mem_middle t l₁ l₂
  refine ⟨?_, ?_, ?_, ?_, ?_, ?_, ?_, ?_, ?_, ?_, ?_, ?_, ?_, ?_, ?_, ?_,
    ?_, ?_, ?_, ?_, ?_, ?_, ?_, ?_⟩
  · intro u
    have h1 := inv.uniq u
    have h2 := hcount (fun x => isOwner x && (normalizeURL x.url == u))
    have h3 := hsplit (fun x => isOwner x && (normalizeURL x.url == u))
    have e : List.countP
        (fun x => isOwner x && (normalizeURL x.url == u)) [t] = 0 := by
      simp [List.countP_cons, hOwn]
    have e2 : List.countP (fun x => isOwner x && (normalizeURL x.url == u))
        [{ t with phase := ph2 }] = 0 := by
      simp [List.countP_cons, hOwn2]
    unfold pagesAt ownersAt at *
    dsimp only at *
    omega
  · intro u hu
    have h1 := inv.visClosed u hu
    have h2 := hcount (fun x => pastEntry x && (normalizeURL x.url == u))
    have h3 := hsplit (fun x => pastEntry x && (normalizeURL x.url == u))
    have e : List.countP (fun x => pastEntry x && (normalizeURL x.url == u)) [t]
        = List.countP (fun x => pastEntry x && (normalizeURL x.url == u))
          [{ t with phase := ph2 }] := by
      simp [List.countP_cons, hPast, hPast2]
    unfold pagesAt pastAt at *
    dsimp only at *
    omega
  · intro u
    have h1 := inv.fetchOnce u
    have h2 := hcount (fun x => preFetch x && (normalizeURL x.url == u))
    have h3 := hsplit (fun x => preFetch x && (normalizeURL x.url == u))
    have e : List.countP
        (fun x => preFetch x && (normalizeURL x.url == u)) [t] = 0 := by
      simp [List.countP_cons, hPre]
    have e2 : List.countP (fun x => preFetch x && (normalizeURL x.url == u))
        [{ t with phase := ph2 }] = 0 := by
      simp [List.countP_cons, hPre2]
    unfold preAt at *
    dsimp only at *
    omega
  · have h := inv.rootData
    rw [hts] at h
    dsimp only
    exact forall_updated h (fun hid => h t (mem_middle t l₁ l₂) hid)
  · have h := inv.childDepth
    rw [hts] at h
    dsimp only
    exact forall_updated h (fun hid => h t (mem_middle t l₁ l₂) hid)
  · have h := inv.depthLe
    rw [hts] at h
    dsimp only
    exact forall_updated h (fun _ => h t (mem_middle t l₁ l₂) hPast)
  · have h := inv.depthNonneg
    rw [hts] at h
    dsimp only
    exact forall_updated h (h t (mem_middle t l₁ l₂))
  · exact inv.pageDepth
  · exact inv.pageZeroSeed
  · exact inv.seedPageZero
  · exact inv.pageFetch
  · have h := inv.appendOk
    rw [hts] at h
    dsimp only
    refine forall_updated h ?_
    intro r2 hr2
    exact absurd (hApp2 r2) (by simp at hr2; simp [hr2])
  · have h := inv.seedOwner
    rw [hts] at h
    dsimp only
    refine forall_updated h ?_
    intro _ hseed
    exact inv.seedOwner t hmemT hPast hseed
  · intro hex
    rcases hex with ⟨x, hx, hxid⟩
    refine inv.seedVis ?_
    rcases mem_split_iff.1 hx with hx | rfl
    · exact ⟨x, by rw [hts]; exact mem_split_iff.2 (Or.inl hx), hxid⟩
    · exact ⟨t, hmemT, hxid⟩
  · intro hex
    rcases hex with ⟨x, hx, hxid, hxph⟩
    rcases mem_split_iff.1 hx with hx | rfl
    · exact absurd (rootEntryInit_aux cfg env inv hts hx hxid hxph) (fun h => h)
    · exact absurd hxph (by simpa using hEntry2)
  · dsimp only
    exact rootLive_update cfg env inv { t with phase := ph2 } hts rfl
      (fun p hp => hp) (fun h => h)
  · have h := inv.donePage
    rw [hts] at h
    dsimp only
    refine forall_updated h ?_
    intro _
    exact h t (mem_middle t l₁ l₂) hDone
  · have h2 := hcount isHolder
    have h3 := hsplit isHolder
    have e1 : List.countP isHolder [t] = 1 := by
      simp [List.countP_cons, hHold]
    have e2 : List.countP isHolder [{ t with phase := ph2 }] = 1 := by
      simp [List.countP_cons, hHold2]
    have h := inv.semCount
    dsimp only
    omega
  · exact inv.semLe
  · have h2 := hcount isHolder
    have h3 := hsplit isHolder
    have e1 : List.countP isHolder [t] = 1 := by
      simp [List.countP_cons, hHold]
    have e2 : List.countP isHolder [{ t with phase := ph2 }] = 1 := by
      simp [List.countP_cons, hHold2]
    have h := inv.acqRel
    dsimp only
    omega
  · exact inv.rootFailFetch
  · have h := inv.idsLt
    rw [hts] at h
    dsimp only
    exact forall_updated h (h t (mem_middle t l₁ l₂))
  · exact inv.nextPos
  · exact inv.waitsZero

theorem inv_scanSpawn (cfg : Config) (env : Env) (dom : String) {s : St}
    (inv : Inv cfg env s) (l₁ l₂ : List Task) (t : Task)
    (href : String) (rest : List String) (ch : List Nat) (abs : String)
    (hts : s.tasks = l₁ ++ t :: l₂)
    (hph : t.phase = .scanning (href :: rest) ch)
    (_hl : linkTarget env dom (normalizeURL t.url) href = some abs) :
    Inv cfg env
      { s with
          tasks := (l₁ ++ { t with phase := .scanning rest (ch ++ [s.nextId]) } :: l₂)
                     ++ [⟨s.nextId, abs, t.depth + 1, .entry⟩],
          nextId := s.nextId + 1 } := by
  have hcount : ∀ p : Task → Bool,
      List.countP p (l₁ ++ l₂) + List.countP p [t]
        = List.countP p s.tasks := by
    intro p; rw [hts, countP_split]
  have hsplit : ∀ p : Task → Bool,
      List.countP p
        ((l₁ ++ { t with phase := Phase.scanning rest (ch ++ [s.nextId]) } :: l₂)
          ++ [⟨s.nextId, abs, t.depth + 1, .entry⟩])
        = List.countP p (l₁ ++ l₂)
          + List.countP p
              [{ t with phase := Phase.scanning rest (ch ++ [s.nextId]) }]
          + List.countP p [(⟨s.nextId, abs, t.depth + 1, .entry⟩ : Task)] := by
    intro p
    rw [List.countP_append, countP_split]
  have hmemT : t ∈ s.tasks := by rw [hts]; exact mem_middle t l₁ l₂
  have hpe : pastEntry t = true := by simp [pastEntry, hph]
  have hmem2 : ∀ x : Task,
      x ∈ (l₁ ++ { t with phase := Phase.scanning rest (ch ++ [s.nextId]) } :: l₂)
            ++ [⟨s.nextId, abs, t.depth + 1, .entry⟩] →
      x ∈ l₁ ++ l₂ ∨
        x = { t with phase := Phase.scanning rest (ch ++ [s.nextId]) } ∨
        x = ⟨s.nextId, abs, t.depth + 1, .entry⟩ := by
    intro x hx
    rcases List.mem_append.1 hx with hx | hx
    · rcases mem_split_iff.1 hx with hx | rfl
      · exact Or.inl hx
      · exact Or.inr (Or.inl rfl)
    · exact Or.inr (Or.inr (List.mem_singleton.1 hx))
  have hforall : ∀ (P : Task → Prop), (∀ x ∈ s.tasks, P x) →
      P { t with phase := Phase.scanning rest (ch ++ [s.nextId]) } →
      P (⟨s.nextId, abs, t.depth + 1, .entry⟩ : Task) →
      ∀ x ∈ (l₁ ++ { t with phase := Phase.scanning rest (ch ++ [s.nextId]) } :: l₂)
              ++ [⟨s.nextId, abs, t.depth + 1, .entry⟩], P x := by
    intro P h h1 h2 x hx
    rcases hmem2 x hx with hx | rfl | rfl
    · exact h x (by rw [hts]; exact mem_split_iff.2 (Or.inl hx))
    · exact h1
    · exact h2
  refine ⟨?_, ?_, ?_, ?_, ?_, ?_, ?_, ?_, ?_, ?_, ?_, ?_, ?_, ?_, ?_, ?_,
    ?_, ?_, ?_, ?_, ?_, ?_, ?_, ?_⟩
  · intro u
    have h1 := inv.uniq u
    have h2 := hcount (fun x => isOwner x && (normalizeURL x.url == u))
    have h3 := hsplit (fun x => isOwner x && (normalizeURL x.url == u))
    have e : List.countP
        (fun x => isOwner x && (normalizeURL x.url == u)) [t] = 0 := by
      simp [List.countP_cons, isOwner, hph]
    have e2 : List.countP (fun x => isOwner x && (normalizeURL x.url == u))
        [{ t with phase := Phase.scanning rest (ch ++ [s.nextId]) }] = 0 := by
      simp [List.countP_cons, isOwner]
    have e3 : List.countP (fun x => isOwner x && (normalizeURL x.url == u))
        [(⟨s.nextId, abs, t.depth + 1, .entry⟩ : Task)] = 0 := by
      simp [List.countP_cons, isOwner]
    unfold pagesAt ownersAt at *
    dsimp only at *
    omega
  · intro u hu
    have h1 := inv.visClosed u hu
    have h2 := hcount (fun x => pastEntry x && (normalizeURL x.url == u))
    have h3 := hsplit (fun x => pastEntry x && (normalizeURL x.url == u))
    have e : List.countP (fun x => pastEntry x && (normalizeURL x.url == u)) [t]
        = List.countP (fun x => pastEntry x && (normalizeURL x.url == u))
          [{ t with phase := Phase.scanning rest (ch ++ [s.nextId]) }] := by
      simp [List.countP_cons, pastEntry, hph]
    have e3 : List.countP (fun x => pastEntry x && (normalizeURL x.url == u))
        [(⟨s.nextId, abs, t.depth + 1, .entry⟩ : Task)] = 0 := by
      simp [List.countP_cons, pastEntry]
    unfold pagesAt pastAt at *
    dsimp only at *
    omega
  · intro u
    have h1 := inv.fetchOnce u
    have h2 := hcount (fun x => preFetch x && (normalizeURL x.url == u))
    have h3 := hsplit (fun x => preFetch x && (normalizeURL x.url == u))
    have e : List.countP
        (fun x => preFetch x && (normalizeURL x.url == u)) [t] = 0 := by
      simp [List.countP_cons, preFetch, hph]
    have e2 : List.countP (fun x => preFetch x && (normalizeURL x.url == u))
        [{ t with phase := Phase.scanning rest (ch ++ [s.nextId]) }] = 0 := by
      simp [List.countP_cons, preFetch]
    have e3 : List.countP (fun x => preFetch x && (normalizeURL x.url == u))
        [(⟨s.nextId, abs, t.depth + 1, .entry⟩ : Task)] = 0 := by
      simp [List.countP_cons, preFetch]
    unfold preAt at *
    dsimp only at *
    omega
  · dsimp only
    refine hforall _ inv.rootData ?_ ?_
    · intro hid
      exact inv.rootData t hmemT hid
    · intro hid
      have := inv.nextPos
      simp only at hid
      omega
  · dsimp only
    refine hforall _ inv.childDepth ?_ ?_
    · intro hid
      exact inv.childDepth t hmemT hid
    · intro _
      have := inv.depthNonneg t hmemT
      simp only
      omega
  · dsimp only
    refine hforall _ inv.depthLe ?_ ?_
    · intro _
      exact inv.depthLe t hmemT hpe
    · intro hpe2
      exact absurd hpe2 (by simp [pastEntry])
  · dsimp only
    refine hforall _ inv.depthNonneg ?_ ?_
    · exact inv.depthNonneg t hmemT
    · have := inv.depthNonneg t hmemT
      simp only
      omega
  · exact inv.pageDepth
  · exact inv.pageZeroSeed
  · exact inv.seedPageZero
  · exact inv.pageFetch
  · dsimp only
    refine hforall _ inv.appendOk ?_ ?_
    · intro r2 hr2
      exact absurd hr2 (by simp)
    · intro r2 hr2
      exact absurd hr2 (by simp)
  · dsimp only
    refine hforall _ inv.seedOwner ?_ ?_
    · intro _ hseed
      exact inv.seedOwner t hmemT hpe hseed
    · intro hpe2
      exact absurd hpe2 (by simp [pastEntry])
  · intro _
    by_cases hid : t.id = 0
    · have hurl := (inv.rootData t hmemT hid).1
      have := pastEntry_visited cfg env inv hts hpe
      rw [hurl] at this
      exact this
    · exact inv.seedVis ⟨t, hmemT, hid⟩
  · intro hex
    rcases hex with ⟨x, hx, hxid, hxph⟩
    rcases hmem2 x hx with hx | rfl | rfl
    · exact absurd (rootEntryInit_aux cfg env inv hts hx hxid hxph) (fun h => h)
    · exact absurd hxph (by simp)
    · have := inv.nextPos
      simp only at hxid
      omega
  · rcases rootLive_update cfg env inv
        { t with phase := Phase.scanning rest (ch ++ [s.nextId]) } hts rfl
        (fun p (hp : p ∈ s.pages) => hp)
        (fun (h : s.rootFailed = true) => h) with ⟨x, hx, hxid⟩ | hr | hr | hr
    · exact Or.inl ⟨x, List.mem_append_left _ hx, hxid⟩
    · exact Or.inr (Or.inl hr)
    · exact Or.inr (Or.inr (Or.inl hr))
    · exact Or.inr (Or.inr (Or.inr hr))
  · dsimp only
    refine hforall _ inv.donePage ?_ ?_
    · intro _
      exact inv.donePage t hmemT (by simp [isDone, hph])
    · intro hd
      exact absurd hd (by simp [isDone])
  · have h2 := hcount isHolder
    have h3 := hsplit isHolder
    have e1 : List.countP isHolder [t] = 1 := by
      simp [List.countP_cons, isHolder, hph]
    have e2 : List.countP isHolder
        [{ t with phase := Phase.scanning rest (ch ++ [s.nextId]) }] = 1 := by
      simp [List.countP_cons, isHolder]
    have e3 : List.countP isHolder
        [(⟨s.nextId, abs, t.depth + 1, .entry⟩ : Task)] = 0 := by
      simp [List.countP_cons, isHolder]
    have h := inv.semCount
    dsimp only
    omega
  · exact inv.semLe
  · have h2 := hcount isHolder
    have h3 := hsplit isHolder
    have e1 : List.countP isHolder [t] = 1 := by
      simp [List.countP_cons, isHolder, hph]
    have e2 : List.countP isHolder
        [{ t with phase := Phase.scanning rest (ch ++ [s.nextId]) }] = 1 := by
      simp [List.countP_cons, isHolder]
    have e3 : List.countP isHolder
        [(⟨s.nextId, abs, t.depth + 1, .entry⟩ : Task)] = 0 := by
      simp [List.countP_cons, isHolder]
    have h := inv.acqRel
    dsimp only
    omega
  · exact inv.rootFailFetch
  · dsimp only
    refine hforall _ ?_ ?_ ?_
    · intro x hx
      have := inv.idsLt x hx
      omega
    · have := inv.idsLt t hmemT
      simp only
      omega
    · simp only
      omega
  · dsimp only
    have := inv.nextPos
    omega
  · exact inv.waitsZero

theorem inv_joinDone (cfg : Config) (env : Env) {s : St}
    (inv : Inv cfg env s) (l₁ l₂ : List Task) (t : Task) (ch : List Nat)
    (hts : s.tasks = l₁ ++ t :: l₂) (hph : t.phase = .joining ch) :
    Inv cfg env
      { s with tasks := l₁ ++ l₂, sem := s.sem - 1,
               releases := s.releases + 1 } := by
  have hcount : ∀ p : Task → Bool,
      List.countP p (l₁ ++ l₂) + List.countP p [t]
        = List.countP p s.tasks := by
    intro p; rw [hts, countP_split]
  have hmemT : t ∈ s.tasks := by rw [hts]; exact mem_middle t l₁ l₂
  have hpe : pastEntry t = true := by simp [pastEntry, hph]
  have hsub : ∀ (P : Task → Prop), (∀ x ∈ s.tasks, P x) →
      ∀ x ∈ l₁ ++ l₂, P x := by
    intro P h
    exact forall_removed (by rw [hts] at h; exact h)
  refine ⟨?_, ?_, ?_, ?_, ?_, ?_, ?_, ?_, ?_, ?_, ?_, ?_, ?_, ?_, ?_, ?_,
    ?_, ?_, ?_, ?_, ?_, ?_, ?_, ?_⟩
  · intro u
    have h1 := inv.uniq u
    have h2 := hcount (fun x => isOwner x && (normalizeURL x.url == u))
    unfold pagesAt ownersAt at *
    dsimp only at *
    omega
  · intro u hu
    have h1 := inv.visClosed u hu
    have h2 := hcount (fun x => pastEntry x && (normalizeURL x.url == u))
    unfold pagesAt pastAt at *
    dsimp only at *
    omega
  · intro u
    have h1 := inv.fetchOnce u
    have h2 := hcount (fun x => preFetch x && (normalizeURL x.url == u))
    unfold preAt at *
    dsimp only at *
    omega
  · exact hsub _ inv.rootData
  · exact hsub _ inv.childDepth
  · exact hsub _ inv.depthLe
  · exact hsub _ inv.depthNonneg
  · exact inv.pageDepth
  · exact inv.pageZeroSeed
  · exact inv.seedPageZero
  · exact inv.pageFetch
  · exact hsub _ inv.appendOk
  · exact hsub _ inv.seedOwner
  · intro hex
    rcases hex with ⟨x, hx, hxid⟩
    exact inv.seedVis ⟨x, by rw [hts]; exact mem_split_iff.2 (Or.inl hx), hxid⟩
  · intro hex
    rcases hex with ⟨x, hx, hxid, hxph⟩
    exact absurd (rootEntryInit_aux cfg env inv hts hx hxid hxph) (fun h => h)
  · by_cases hid : t.id = 0
    · obtain ⟨p, hp, hp2⟩ := inv.donePage t hmemT (by simp [isDone, hph])
      have hurl := (inv.rootData t hmemT hid).1
      have hdep := (inv.rootData t hmemT hid).2
      refine Or.inr (Or.inr (Or.inl ⟨p, hp, ?_, ?_⟩))
      · rw [hp2.1, hurl]
      · rw [hp2.2, hdep]
    · rcases inv.rootLive with ⟨x, hx, hxid⟩ | hr | ⟨p, hp, hp2⟩ | hr
      · rw [hts] at hx
        rcases mem_split_iff.1 hx with hx | rfl
        · exact Or.inl ⟨x, hx, hxid⟩
        · exact absurd hxid hid
      · exact Or.inr (Or.inl hr)
      · exact Or.inr (Or.inr (Or.inl ⟨p, hp, hp2⟩))
      · exact Or.inr (Or.inr (Or.inr hr))
  · exact hsub _ inv.donePage
  · have h2 := hcount isHolder
    have e1 : List.countP isHolder [t] = 1 := by
      simp [List.countP_cons, isHolder, hph]
    have h := inv.semCount
    dsimp only
    omega
  · have h := inv.semLe
    dsimp only
    omega
  · have h2 := hcount isHolder
    have e1 : List.countP isHolder [t] = 1 := by
      simp [List.countP_cons, isHolder, hph]
    have h := inv.acqRel
    dsimp only
    omega
  · exact inv.rootFailFetch
  · exact hsub _ inv.idsLt
  · exact inv.nextPos
  · exact inv.waitsZero

/-- The master invariant is preserved by every atomic step. -/
theorem inv_step (cfg : Config) (env : Env) (dom : String) {s s2 : St}
    (inv : Inv cfg env s) (hstep : Step cfg env dom s s2) :
    Inv cfg env s2 := by
  cases hstep with
  | entryDeep l₁ l₂ t hts hph hd =>
    refine inv_remove_entry cfg env inv l₁ l₂ t hts hph ?_
    intro hid
    have hdep := (inv.rootData t (by rw [hts]; exact mem_middle t l₁ l₂) hid).2
    right; right
    rw [hdep] at hd
    exact hd
  | entryVisited l₁ l₂ t hts hph hd hv =>
    refine inv_remove_entry cfg env inv l₁ l₂ t hts hph ?_
    intro hid
    have hinit := inv.rootEntryInit
      ⟨t, by rw [hts]; exact mem_middle t l₁ l₂, hid, hph⟩
    rw [hinit] at hv
    exact absurd hv (by simp [initSt])
  | entryWins l₁ l₂ t hts hph hd hv =>
    exact inv_entryWins cfg env inv l₁ l₂ t hts hph hd hv
  | acquire l₁ l₂ t hts hph hsem =>
    exact inv_acquire cfg env inv l₁ l₂ t hts hph hsem
  | fetchOk l₁ l₂ t r hts hph hf =>
    exact inv_fetchOk cfg env inv l₁ l₂ t r hts hph hf
  | fetchFail l₁ l₂ t hts hph hf =>
    exact inv_fetchFail cfg env inv l₁ l₂ t hts hph hf
  | append l₁ l₂ t r hts hph =>
    exact inv_append cfg env inv l₁ l₂ t r hts hph
  | scanSkip l₁ l₂ t href rest ch hts hph hl =>
    exact inv_scanlike cfg env inv l₁ l₂ t (Phase.scanning rest ch) hts
      (by simp [isOwner, hph]) (by simp [isOwner])
      (by simp [pastEntry, hph]) (by simp [pastEntry])
      (by simp [preFetch, hph]) (by simp [preFetch])
      (by simp [isHolder, hph]) (by simp [isHolder])
      (by simp [isDone, hph]) (by simp) (by simp)
  | scanSpawn l₁ l₂ t href rest ch abs hts hph hl =>
    exact inv_scanSpawn cfg env dom inv l₁ l₂ t href rest ch abs hts hph hl
  | scanDone l₁ l₂ t ch hts hph =>
    exact inv_scanlike cfg env inv l₁ l₂ t (Phase.joining ch) hts
      (by simp [isOwner, hph]) (by simp [isOwner])
      (by simp [pastEntry, hph]) (by simp [pastEntry])
      (by simp [preFetch, hph]) (by simp [preFetch])
      (by simp [isHolder, hph]) (by simp [isHolder])
      (by simp [isDone, hph]) (by simp) (by simp)
  | joinDone l₁ l₂ t ch hts hph hch =>
    exact inv_joinDone cfg env inv l₁ l₂ t ch hts hph

/-- Every reachable state of a crawl satisfies the master invariant. -/
theorem reach_inv (cfg : Config) (env : Env) (dom : String) {s : St}
    (h : Reach cfg env dom s) : Inv cfg env s := by
  induction h with
  | refl => exact inv_init cfg env
  | tail _ hstep ih => exact inv_step cfg env dom ih hstep

/-! ## Domain invariant (same-host filter)

The link filter compares hostnames before spawning a child (crawler.go
154-158), and `Crawl` derives the base domain from the seed once (line 57).
Carrying this to the recorded pages uses one property of the external URL
library: stripping a fragment does not change a URL's hostname
(hypothesis `H` below), since page records store the normalized URL. -/

theorem linkTarget_hostname (env : Env) (dom b href abs : String)
    (hl : linkTarget env dom b href = some abs) :
    env.hostname abs = some dom := by
  unfold linkTarget at hl
  split at hl
  · exact absurd hl (by simp)
  · next a hres =>
    split at hl
    · exact absurd hl (by simp)
    · next d hhn =>
      split at hl
      · next hd =>
        split at hl
        · exact absurd hl (by simp)
        · have ha : a = abs := by simpa using hl
          rw [← ha, hhn, hd]
      · exact absurd hl (by simp)

/-- Every live task's URL and every recorded page's URL parse to the base
domain. -/
structure DomInv (cfg : Config) (env : Env) (dom : String) (s : St) : Prop where
  taskDom : ∀ t ∈ s.tasks, env.hostname t.url = some dom
  pageDom : ∀ p ∈ s.pages, env.hostname p.URL = some dom

theorem domInv_init (cfg : Config) (env : Env) (dom : String)
    (hseed : env.hostname cfg.baseURL = some dom) :
    DomInv cfg env dom (initSt cfg) := by
  constructor
  · intro t ht
    have : t = ⟨0, cfg.baseURL, 0, .entry⟩ := by simpa [initSt] using ht
    rw [this]
    exact hseed
  · intro p hp
    exact absurd hp (by simp [initSt])

theorem domInv_step (cfg : Config) (env : Env) (dom : String) {s s2 : St}
    (H : ∀ u : String, env.hostname (normalizeURL u) = env.hostname u)
    (d : DomInv cfg env dom s) (hstep : Step cfg env dom s s2) :
    DomInv cfg env dom s2 := by
  cases hstep with
  | entryDeep l₁ l₂ t hts hph hd =>
    refine ⟨?_, d.pageDom⟩
    have h := d.taskDom
    rw [hts] at h
    exact forall_removed h
  | entryVisited l₁ l₂ t hts hph hd hv =>
    refine ⟨?_, d.pageDom⟩
    have h := d.taskDom
    rw [hts] at h
    exact forall_removed h
  | entryWins l₁ l₂ t hts hph hd hv =>
    refine ⟨?_, d.pageDom⟩
    have h := d.taskDom
    rw [hts] at h
    exact forall_updated h (h t (mem_middle t l₁ l₂))
  | acquire l₁ l₂ t hts hph hsem =>
    refine ⟨?_, d.pageDom⟩
    have h := d.taskDom
    rw [hts] at h
    exact forall_updated h (h t (mem_middle t l₁ l₂))
  | fetchOk l₁ l₂ t r hts hph hf =>
    refine ⟨?_, d.pageDom⟩
    have h := d.taskDom
    rw [hts] at h
    exact forall_updated h (h t (mem_middle t l₁ l₂))
  | fetchFail l₁ l₂ t hts hph hf =>
    refine ⟨?_, d.pageDom⟩
    have h := d.taskDom
    rw [hts] at h
    exact forall_removed h
  | append l₁ l₂ t r hts hph =>
    have h := d.taskDom
    rw [hts] at h
    refine ⟨forall_updated h (h t (mem_middle t l₁ l₂)), ?_⟩
    refine forall_appended d.pageDom ?_
    show env.hostname (pageOf (normalizeURL t.url) r t.depth).URL = some dom
    have : (pageOf (normalizeURL t.url) r t.depth).URL
        = normalizeURL t.url := rfl
    rw [this, H t.url]
    exact h t (mem_middle t l₁ l₂)
  | scanSkip l₁ l₂ t href rest ch hts hph hl =>
    refine ⟨?_, d.pageDom⟩
    have h := d.taskDom
    rw [hts] at h
    exact forall_updated h (h t (mem_middle t l₁ l₂))
  | scanSpawn l₁ l₂ t href rest ch abs hts hph hl =>
    refine ⟨?_, d.pageDom⟩
    have h := d.taskDom
    rw [hts] at h
    refine forall_appended (forall_updated h (h t (mem_middle t l₁ l₂))) ?_
    exact linkTarget_hostname env dom (normalizeURL t.url) href abs hl
  | scanDone l₁ l₂ t ch hts hph =>
    refine ⟨?_, d.pageDom⟩
    have h := d.taskDom
    rw [hts] at h
    exact forall_updated h (h t (mem_middle t l₁ l₂))
  | joinDone l₁ l₂ t ch hts hph hch =>
    refine ⟨?_, d.pageDom⟩
    have h := d.taskDom
    rw [hts] at h
    exact forall_removed h

theorem reach_domInv (cfg : Config) (env : Env) (dom : String) {s : St}
    (H : ∀ u : String, env.hostname (normalizeURL u) = env.hostname u)
    (hseed : env.hostname cfg.baseURL = some dom)
    (h : Reach cfg env dom s) : DomInv cfg env dom s := by
  induction h with
  | refl => exact domInv_init cfg env dom hseed
  | tail _ hstep ih => exact domInv_step cfg env dom H ih hstep

/-- `visited` only ever grows: no step removes an entry
(crawler.go inserts at line 84 and never deletes). -/
theorem step_visited_mono (cfg : Config) (env : Env) (dom : String)
    {s s2 : St} (hstep : Step cfg env dom s s2) :
    ∀ u ∈ s.visited, u ∈ s2.visited := by
  cases hstep with
  | entryWins l₁ l₂ t hts hph hd hv =>
    intro u hu
    exact List.mem_cons_of_mem _ hu
  | entryDeep l₁ l₂ t hts hph hd => exact fun u hu => hu
  | entryVisited l₁ l₂ t hts hph hd hv => exact fun u hu => hu
  | acquire l₁ l₂ t hts hph hsem => exact fun u hu => hu
  | fetchOk l₁ l₂ t r hts hph hf => exact fun u hu => hu
  | fetchFail l₁ l₂ t hts hph hf => exact fun u hu => hu
  | append l₁ l₂ t r hts hph => exact fun u hu => hu
  | scanSkip l₁ l₂ t href rest ch hts hph hl => exact fun u hu => hu
  | scanSpawn l₁ l₂ t href rest ch abs hts hph hl => exact fun u hu => hu
  | scanDone l₁ l₂ t ch hts hph => exact fun u hu => hu
  | joinDone l₁ l₂ t ch hts hph hch => exact fun u hu => hu

/-! ## Claim theorems -/

/-- C1: For every input link graph (environment) and every interleaving,
each canonical URL appears in the result collection at most once and its
fetch step runs at most once, even when the URL is discoverable from
multiple parent pages concurrently: the visited-map check and insertion of
crawlPage (lines 79-85) are one atomic critical section (`entryWins`), and
only the task that inserts the URL proceeds to fetch and append a Page. -/
theorem C1_no_duplicate_visits (cfg : Config) (env : Env) (dom : String)
    {s : St} (h : Reach cfg env dom s) :
    (s.pages.map Page.URL).Nodup ∧ s.fetched.Nodup := by
  have inv := reach_inv cfg env dom h
  constructor
  · refine List.nodup_iff_count_le_one.2 ?_
    intro u
    have h1 := inv.uniq u
    have h2 : List.count u (s.pages.map Page.URL) = pagesAt s u := by
      unfold pagesAt
      rw [List.count_eq_countP, List.countP_map]
      rfl
    omega
  · refine List.nodup_iff_count_le_one.2 ?_
    intro u
    have h1 := inv.fetchOnce u
    omega

/-- C2 (amended): `Crawl` ends in the error outcome only when the seed
page's own fetch/parse failed (beyond the unparseable-seed-URL case checked
before any work); whenever the root call did not fail, the collected pages
are returned with nil error.  Fetch failures of non-seed pages are
discarded by the spawning goroutine (crawler.go line 168, `_ =`) and never
make `Crawl` return an error. -/
theorem C2_error_only_on_seed_failure (cfg : Config) (env : Env)
    (dom : String) {s : St} (h : Reach cfg env dom s) :
    (s.rootFailed = true → env.fetch (normalizeURL cfg.baseURL) = none ∧
      finalResult s = none) ∧
    (s.rootFailed = false → finalResult s = some s.pages) := by
  have inv := reach_inv cfg env dom h
  constructor
  · intro hrf
    exact ⟨inv.rootFailFetch hrf, by simp [finalResult, hrf]⟩
  · intro hok
    simp [finalResult, hok]

/-- C4: No recorded Page has Depth above maxDepth (and depths are never
negative); any Page recorded for the canonical seed URL has Depth 0; and
with maxDepth = 0 a completed crawl whose seed fetch succeeded holds
exactly the seed page, because crawlPage is a no-op when depth exceeds
maxDepth (lines 71-73) and each child runs at depth+1 (line 168). -/
theorem C4_depth_bound (cfg : Config) (env : Env) (dom : String)
    {s : St} (h : Reach cfg env dom s) :
    (∀ p ∈ s.pages, 0 ≤ p.Depth ∧ p.Depth ≤ cfg.maxDepth) ∧
    (∀ p ∈ s.pages, p.URL = normalizeURL cfg.baseURL → p.Depth = 0) ∧
    (cfg.maxDepth = 0 → s.tasks = [] →
      ∀ r : FetchOk, env.fetch (normalizeURL cfg.baseURL) = some r →
        s.pages = [pageOf (normalizeURL cfg.baseURL) r 0]) := by
  have inv := reach_inv cfg env dom h
  refine ⟨inv.pageDepth, inv.seedPageZero, ?_⟩
  intro hmd hterm r hr
  have hall : ∀ p ∈ s.pages, p = pageOf (normalizeURL cfg.baseURL) r 0 := by
    intro p hp
    have hd1 := inv.pageDepth p hp
    have hdep : p.Depth = 0 := by omega
    have hurl : p.URL = normalizeURL cfg.baseURL := inv.pageZeroSeed p hp hdep
    obtain ⟨r2, hr2, ht2, hc2⟩ := inv.pageFetch p hp
    rw [hurl, hr] at hr2
    have hrr : r = r2 := by
      simpa using hr2
    cases p with
    | mk pu pt pc pd =>
      simp only at hurl ht2 hc2 hdep
      rw [hurl, ht2, hc2, hdep, ← hrr]
      rfl
  rcases inv.rootLive with ⟨x, hx, _⟩ | hrf | ⟨p0, hp0, hp0u, hp0d⟩ | hneg
  · rw [hterm] at hx
    exact absurd hx (by simp)
  · rw [inv.rootFailFetch hrf] at hr
    exact absurd hr (by simp)
  · cases hpages : s.pages with
    | nil =>
      rw [hpages] at hp0
      exact absurd hp0 (by simp)
    | cons a tl =>
      cases tl with
      | nil =>
        have ha := hall a (by rw [hpages]; simp)
        rw [ha]
      | cons b tl2 =>
        exfalso
        have ha := hall a (by rw [hpages]; simp)
        have hb := hall b (by rw [hpages]; simp)
        have h1 := inv.uniq (normalizeURL cfg.baseURL)
        have h2 : 2 ≤ pagesAt s (normalizeURL cfg.baseURL) := by
          unfold pagesAt
          rw [hpages, ha, hb]
          simp [List.countP_cons, pageOf]
        omega
  · omega

/-- C5: No recorded Page's URL has a hostname different from the base
domain derived once from the seed: children are spawned only when the
resolved absolute URL's hostname equals baseDomain (crawler.go 154-158).
The hypothesis `H` is the property of the external URL library that
stripping a fragment (the only thing `normalizeURL` does) does not change
a URL's hostname; `hseed` says the seed parses to `dom`, as computed by
`Crawl` (line 57). -/
theorem C5_domain_filter (cfg : Config) (env : Env) (dom : String)
    (H : ∀ u : String, env.hostname (normalizeURL u) = env.hostname u)
    (hseed : env.hostname cfg.baseURL = some dom)
    {s : St} (h : Reach cfg env dom s) :
    ∀ p ∈ s.pages, env.hostname p.URL = some dom :=
  (reach_domInv cfg env dom H hseed h).pageDom

/-- C6: At no instant are more than `maxConcurrentFetches` (= 5, the
capacity of the semaphore channel made in `New`, line 45) fetches in
flight, and the ghost acquire/release counters balance: the acquires always
equal the releases plus the live slot holders, so when all tasks have
exited every successful acquire has been paired with exactly one release
(the deferred pop at line 89 runs on every exit path). -/
theorem C6_concurrency_bound (cfg : Config) (env : Env) (dom : String)
    {s : St} (h : Reach cfg env dom s) :
    s.tasks.countP isFetching ≤ maxConcurrentFetches ∧
    s.acquires = s.releases + s.tasks.countP isHolder ∧
    (s.tasks = [] → s.acquires = s.releases) := by
  have inv := reach_inv cfg env dom h
  have hle : s.tasks.countP isFetching ≤ s.tasks.countP isHolder := by
    refine countP_le_countP _ _ _ ?_
    intro a ha
    revert ha
    unfold isFetching isHolder
    cases a.phase <;> simp
  have h1 := inv.semCount
  have h2 := inv.semLe
  refine ⟨by omega, inv.acqRel, ?_⟩
  intro hterm
  have h3 := inv.acqRel
  rw [hterm] at h3
  simpa using h3

/-- C9: A canonical URL is in `visited` whenever its fetch has run and
`visited` only grows, so a URL whose fetch or parse failed stays recorded
as visited forever: it is never fetched twice even if rediscovered via
another parent, and every recorded Page comes from a successful fetch (a
failed URL contributes no Page). -/
theorem C9_failed_url_never_retried (cfg : Config) (env : Env)
    (dom : String) {s : St} (h : Reach cfg env dom s) :
    (∀ u ∈ s.fetched, u ∈ s.visited) ∧
    (∀ s2 : St, Step cfg env dom s s2 → ∀ u ∈ s.visited, u ∈ s2.visited) ∧
    s.fetched.Nodup ∧
    (∀ p ∈ s.pages, (env.fetch p.URL).isSome) := by
  have inv := reach_inv cfg env dom h
  refine ⟨?_, fun s2 hstep => step_visited_mono cfg env dom hstep, ?_, ?_⟩
  · intro u hu
    by_contra hv
    have h1 := (inv.visClosed u hv).2.2
    have h2 := List.count_pos_iff.2 hu
    omega
  · refine List.nodup_iff_count_le_one.2 ?_
    intro u
    have h1 := inv.fetchOnce u
    omega
  · intro p hp
    obtain ⟨r, hr, _, _⟩ := inv.pageFetch p hp
    rw [hr]
    rfl

theorem step_tasks_ne_nil (cfg : Config) (env : Env) (dom : String)
    {s s2 : St} (hstep : Step cfg env dom s s2) : s.tasks ≠ [] := by
  intro hnil
  cases hstep <;> simp_all

/-- C10: With a negative maxDepth the crawl does nothing: the initial call
`crawlPage(seed, 0)` returns as a no-op because `0 > maxDepth`
(crawler.go 71-73), so no fetch runs, nothing is marked visited, and once
the lone task has exited `Crawl` returns the empty page list with nil
error. -/
theorem C10_negative_maxDepth_noop (cfg : Config) (env : Env) (dom : String)
    (hneg : cfg.maxDepth < 0) {s : St} (h : Reach cfg env dom s) :
    s.pages = [] ∧ s.visited = [] ∧ s.fetched = [] ∧ s.sem = 0 ∧
    s.rootFailed = false ∧ (s.tasks = [] → finalResult s = some []) := by
  have key : s = initSt cfg ∨ s = { initSt cfg with tasks := [] } := by
    induction h with
    | refl => exact Or.inl rfl
    | tail hr hstep ih =>
      rcases ih with rfl | rfl
      · cases hstep with
        | entryDeep l₁ l₂ t hts hph hd =>
          right
          have hts2 : [(⟨0, cfg.baseURL, 0, Phase.entry⟩ : Task)]
              = l₁ ++ t :: l₂ := hts
          obtain ⟨he1, he2, he3⟩ := split_singleton hts2.symm
          subst he1
          subst he3
          rfl
        | entryVisited l₁ l₂ t hts hph hd hv =>
          exact absurd hv (by simp [initSt])
        | entryWins l₁ l₂ t hts hph hd hv =>
          exfalso
          have hts2 : [(⟨0, cfg.baseURL, 0, Phase.entry⟩ : Task)]
              = l₁ ++ t :: l₂ := hts
          obtain ⟨he1, he2, he3⟩ := split_singleton hts2.symm
          rw [he2] at hd
          simp only at hd
          omega
        | acquire l₁ l₂ t hts hph hsem =>
          exfalso
          have hts2 : [(⟨0, cfg.baseURL, 0, Phase.entry⟩ : Task)]
              = l₁ ++ t :: l₂ := hts
          obtain ⟨he1, he2, he3⟩ := split_singleton hts2.symm
          rw [he2] at hph
          exact absurd hph (by simp)
        | fetchOk l₁ l₂ t r hts hph hf =>
          exfalso
          have hts2 : [(⟨0, cfg.baseURL, 0, Phase.entry⟩ : Task)]
              = l₁ ++ t :: l₂ := hts
          obtain ⟨he1, he2, he3⟩ := split_singleton hts2.symm
          rw [he2] at hph
          exact absurd hph (by simp)
        | fetchFail l₁ l₂ t hts hph hf =>
          exfalso
          have hts2 : [(⟨0, cfg.baseURL, 0, Phase.entry⟩ : Task)]
              = l₁ ++ t :: l₂ := hts
          obtain ⟨he1, he2, he3⟩ := split_singleton hts2.symm
          rw [he2] at hph
          exact absurd hph (by simp)
        | append l₁ l₂ t r hts hph =>
          exfalso
          have hts2 : [(⟨0, cfg.baseURL, 0, Phase.entry⟩ : Task)]
              = l₁ ++ t :: l₂ := hts
          obtain ⟨he1, he2, he3⟩ := split_singleton hts2.symm
          rw [he2] at hph
          exact absurd hph (by simp)
        | scanSkip l₁ l₂ t href rest ch hts hph hl =>
          exfalso
          have hts2 : [(⟨0, cfg.baseURL, 0, Phase.entry⟩ : Task)]
              = l₁ ++ t :: l₂ := hts
          obtain ⟨he1, he2, he3⟩ := split_singleton hts2.symm
          rw [he2] at hph
          exact absurd hph (by simp)
        | scanSpawn l₁ l₂ t href rest ch abs hts hph hl =>
          exfalso
          have hts2 : [(⟨0, cfg.baseURL, 0, Phase.entry⟩ : Task)]
              = l₁ ++ t :: l₂ := hts
          obtain ⟨he1, he2, he3⟩ := split_singleton hts2.symm
          rw [he2] at hph
          exact absurd hph (by simp)
        | scanDone l₁ l₂ t ch hts hph =>
          exfalso
          have hts2 : [(⟨0, cfg.baseURL, 0, Phase.entry⟩ : Task)]
              = l₁ ++ t :: l₂ := hts
          obtain ⟨he1, he2, he3⟩ := split_singleton hts2.symm
          rw [he2] at hph
          exact absurd hph (by simp)
        | joinDone l₁ l₂ t ch hts hph hch =>
          exfalso
          have hts2 : [(⟨0, cfg.baseURL, 0, Phase.entry⟩ : Task)]
              = l₁ ++ t :: l₂ := hts
          obtain ⟨he1, he2, he3⟩ := split_singleton hts2.symm
          rw [he2] at hph
          exact absurd hph (by simp)
      · exact absurd rfl (step_tasks_ne_nil cfg env dom hstep)
  rcases key with rfl | rfl
  · refine ⟨rfl, rfl, rfl, rfl, rfl, ?_⟩
    intro ht
    exact absurd ht (by simp [initSt])
  · exact ⟨rfl, rfl, rfl, rfl, rfl, fun _ => rfl⟩

/-- C8: URL canonicalization is idempotent for every string; two URLs that
differ only in their fragment (a nonempty `#`-free base followed by `#` and
any fragment text, where the cut happens at the first `#`) collapse to the
same visited-set key; and a URL containing no `#` — query strings and
trailing slashes included — is returned completely unchanged. -/
theorem C8_canonicalization (u base f1 f2 : String)
    (hb : base.data ≠ []) (hh : '#' ∉ base.data) :
    normalizeURL (normalizeURL u) = normalizeURL u ∧
    normalizeURL (base ++ "#" ++ f1) = normalizeURL (base ++ "#" ++ f2) ∧
    ('#' ∉ u.data → normalizeURL u = u) := by
  refine ⟨?_, ?_, ?_⟩
  · show (⟨stripFrag (normalizeURL u).data⟩ : String) = ⟨stripFrag u.data⟩
    have hdata : (normalizeURL u).data = stripFrag u.data := rfl
    rw [hdata, stripFrag_idem]
  · have h1 : (base ++ "#" ++ f1).data = base.data ++ '#' :: f1.data := by
      simp [String.data_append]
    have h2 : (base ++ "#" ++ f2).data = base.data ++ '#' :: f2.data := by
      simp [String.data_append]
    show (⟨stripFrag (base ++ "#" ++ f1).data⟩ : String)
        = ⟨stripFrag (base ++ "#" ++ f2).data⟩
    rw [h1, h2, stripFrag_append base.data f1.data hb hh,
      stripFrag_append base.data f2.data hb hh]
  · intro hu
    show (⟨stripFrag u.data⟩ : String) = u
    rw [stripFrag_of_not_mem u.data hu]

/-- Witness for C8 at concrete URLs: a fragment URL, two fragment-only
variants of the same page, and a fragment-free URL with a query string and
trailing slash. -/
theorem C8_witness :
    normalizeURL (normalizeURL "http://x.test/a?q=1#s") =
      normalizeURL "http://x.test/a?q=1#s" ∧
    normalizeURL ("http://x.test/p?q=2/" ++ "#" ++ "one") =
      normalizeURL ("http://x.test/p?q=2/" ++ "#" ++ "two") ∧
    ('#' ∉ "http://x.test/p?q=2/".data →
      normalizeURL "http://x.test/p?q=2/" = "http://x.test/p?q=2/") := by
  have h := C8_canonicalization "http://x.test/a?q=1#s" "http://x.test/p?q=2/"
    "one" "two" (by decide) (by decide)
  have h2 := C8_canonicalization "http://x.test/p?q=2/" "http://x.test/p?q=2/"
    "one" "two" (by decide) (by decide)
  exact ⟨h.1, h.2.1, fun hq => h2.2.2 hq⟩

/-! ## Concrete environments and executions

A two-page site on host `x.test`: the seed links to `/a` (same host) and
to an unresolvable href `bad`; `/a` has no links.  `envFail` is a server
where every fetch fails.  The configurations mirror
`New("http://x.test/", maxDepth, 30, 2.0)` — delay is the 2-second
`time.Duration` in nanoseconds. -/

def cfgOk : Config := ⟨"http://x.test/", 1, 30, 2000000000⟩

def cfg0 : Config := ⟨"http://x.test/", 0, 30, 2000000000⟩

def cfgNeg : Config := ⟨"http://x.test/", -1, 30, 2000000000⟩

def rHome : FetchOk := ⟨"Home", "Welcome home", ["/a", "bad"]⟩

def rA : FetchOk := ⟨"A", "Page a", []⟩

def envOk : Env where
  fetch u :=
    if u = "http://x.test/" then some rHome
    else if u = "http://x.test/a" then some rA
    else none
  resolve _ href := if href = "/a" then some "http://x.test/a" else none
  hostname _ := some "x.test"

def envFail : Env where
  fetch _ := none
  resolve _ _ := none
  hostname _ := some "x.test"

def pageHome : Page := ⟨"http://x.test/", "Home", "Welcome home", 0⟩

/-- State of the `cfgOk`/`envOk` crawl after the seed task has won the
test-and-set, acquired a slot, fetched, and appended its page. -/
def stA : St :=
  { tasks := [⟨0, "http://x.test/", 0, .scanning ["/a", "bad"] []⟩],
    visited := ["http://x.test/"], pages := [pageHome],
    sem := 1, nextId := 1, rootFailed := false,
    fetched := ["http://x.test/"], acquires := 1, releases := 0, waits := 0 }

theorem reachA : Reach cfgOk envOk "x.test" stA := by
  have h1 : Step cfgOk envOk "x.test" (initSt cfgOk)
      { tasks := [⟨0, "http://x.test/", 0, .waiting⟩],
        visited := ["http://x.test/"], pages := [], sem := 0, nextId := 1,
        rootFailed := false, fetched := [], acquires := 0, releases := 0,
        waits := 0 } :=
    Step.entryWins _ [] [] ⟨0, "http://x.test/", 0, .entry⟩ rfl rfl
      (by decide) (by decide)
  have h2 : Step cfgOk envOk "x.test"
      { tasks := [⟨0, "http://x.test/", 0, .waiting⟩],
        visited := ["http://x.test/"], pages := [], sem := 0, nextId := 1,
        rootFailed := false, fetched := [], acquires := 0, releases := 0,
        waits := 0 }
      { tasks := [⟨0, "http://x.test/", 0, .fetching⟩],
        visited := ["http://x.test/"], pages := [], sem := 1, nextId := 1,
        rootFailed := false, fetched := [], acquires := 1, releases := 0,
        waits := 0 } :=
    Step.acquire _ [] [] ⟨0, "http://x.test/", 0, .waiting⟩ rfl rfl
      (by decide)
  have h3 : Step cfgOk envOk "x.test"
      { tasks := [⟨0, "http://x.test/", 0, .fetching⟩],
        visited := ["http://x.test/"], pages := [], sem := 1, nextId := 1,
        rootFailed := false, fetched := [], acquires := 1, releases := 0,
        waits := 0 }
      { tasks := [⟨0, "http://x.test/", 0, .appending rHome⟩],
        visited := ["http://x.test/"], pages := [], sem := 1, nextId := 1,
        rootFailed := false, fetched := ["http://x.test/"], acquires := 1,
        releases := 0, waits := 0 } :=
    Step.fetchOk _ [] [] ⟨0, "http://x.test/", 0, .fetching⟩ rHome rfl rfl
      (by decide)
  have h4 : Step cfgOk envOk "x.test"
      { tasks := [⟨0, "http://x.test/", 0, .appending rHome⟩],
        visited := ["http://x.test/"], pages := [], sem := 1, nextId := 1,
        rootFailed := false, fetched := ["http://x.test/"], acquires := 1,
        releases := 0, waits := 0 } stA :=
    Step.append _ [] [] ⟨0, "http://x.test/", 0, .appending rHome⟩ rHome
      rfl rfl
  exact Relation.ReflTransGen.head h1 (Relation.ReflTransGen.head h2
    (Relation.ReflTransGen.head h3 (Relation.ReflTransGen.head h4
      Relation.ReflTransGen.refl)))

/-- Terminal state of the `cfg0` (maxDepth 0) crawl of `envOk`: only the
seed page was fetched; the spawned child for `/a` died at the depth
check. -/
def stB : St :=
  { tasks := [], visited := ["http://x.test/"], pages := [pageHome],
    sem := 0, nextId := 2, rootFailed := false,
    fetched := ["http://x.test/"], acquires := 1, releases := 1, waits := 0 }

theorem reachB : Reach cfg0 envOk "x.test" stB := by
  have h1 : Step cfg0 envOk "x.test" (initSt cfg0)
      { tasks := [⟨0, "http://x.test/", 0, .waiting⟩],
        visited := ["http://x.test/"], pages := [], sem := 0, nextId := 1,
        rootFailed := false, fetched := [], acquires := 0, releases := 0,
        waits := 0 } :=
    Step.entryWins _ [] [] ⟨0, "http://x.test/", 0, .entry⟩ rfl rfl
      (by decide) (by decide)
  have h2 : Step cfg0 envOk "x.test"
      { tasks := [⟨0, "http://x.test/", 0, .waiting⟩],
        visited := ["http://x.test/"], pages := [], sem := 0, nextId := 1,
        rootFailed := false, fetched := [], acquires := 0, releases := 0,
        waits := 0 }
      { tasks := [⟨0, "http://x.test/", 0, .fetching⟩],
        visited := ["http://x.test/"], pages := [], sem := 1, nextId := 1,
        rootFailed := false, fetched := [], acquires := 1, releases := 0,
        waits := 0 } :=
    Step.acquire _ [] [] ⟨0, "http://x.test/", 0, .waiting⟩ rfl rfl
      (by decide)
  have h3 : Step cfg0 envOk "x.test"
      { tasks := [⟨0, "http://x.test/", 0, .fetching⟩],
        visited := ["http://x.test/"], pages := [], sem := 1, nextId := 1,
        rootFailed := false, fetched := [], acquires := 1, releases := 0,
        waits := 0 }
      { tasks := [⟨0, "http://x.test/", 0, .appending rHome⟩],
        visited := ["http://x.test/"], pages := [], sem := 1, nextId := 1,
        rootFailed := false, fetched := ["http://x.test/"], acquires := 1,
        releases := 0, waits := 0 } :=
    Step.fetchOk _ [] [] ⟨0, "http://x.test/", 0, .fetching⟩ rHome rfl rfl
      (by decide)
  have h4 : Step cfg0 envOk "x.test"
      { tasks := [⟨0, "http://x.test/", 0, .appending rHome⟩],
        visited := ["http://x.test/"], pages := [], sem := 1, nextId := 1,
        rootFailed := false, fetched := ["http://x.test/"], acquires := 1,
        releases := 0, waits := 0 }
      { tasks := [⟨0, "http://x.test/", 0, .scanning ["/a", "bad"] []⟩],
        visited := ["http://x.test/"], pages := [pageHome], sem := 1,
        nextId := 1, rootFailed := false, fetched := ["http://x.test/"],
        acquires := 1, releases := 0, waits := 0 } :=
    Step.append _ [] [] ⟨0, "http://x.test/", 0, .appending rHome⟩ rHome
      rfl rfl
  have h5 : Step cfg0 envOk "x.test"
      { tasks := [⟨0, "http://x.test/", 0, .scanning ["/a", "bad"] []⟩],
        visited := ["http://x.test/"], pages := [pageHome], sem := 1,
        nextId := 1, rootFailed := false, fetched := ["http://x.test/"],
        acquires := 1, releases := 0, waits := 0 }
      { tasks := [⟨0, "http://x.test/", 0, .scanning ["bad"] [1]⟩,
                  ⟨1, "http://x.test/a", 1, .entry⟩],
        visited := ["http://x.test/"], pages := [pageHome], sem := 1,
        nextId := 2, rootFailed := false, fetched := ["http://x.test/"],
        acquires := 1, releases := 0, waits := 0 } :=
    Step.scanSpawn _ [] [] ⟨0, "http://x.test/", 0, .scanning ["/a", "bad"] []⟩
      "/a" ["bad"] [] "http://x.test/a" rfl rfl (by decide)
  have h6 : Step cfg0 envOk "x.test"
      { tasks := [⟨0, "http://x.test/", 0, .scanning ["bad"] [1]⟩,
                  ⟨1, "http://x.test/a", 1, .entry⟩],
        visited := ["http://x.test/"], pages := [pageHome], sem := 1,
        nextId := 2, rootFailed := false, fetched := ["http://x.test/"],
        acquires := 1, releases := 0, waits := 0 }
      { tasks := [⟨0, "http://x.test/", 0, .scanning [] [1]⟩,
                  ⟨1, "http://x.test/a", 1, .entry⟩],
        visited := ["http://x.test/"], pages := [pageHome], sem := 1,
        nextId := 2, rootFailed := false, fetched := ["http://x.test/"],
        acquires := 1, releases := 0, waits := 0 } :=
    Step.scanSkip _ [] [⟨1, "http://x.test/a", 1, .entry⟩]
      ⟨0, "http://x.test/", 0, .scanning ["bad"] [1]⟩
      "bad" [] [1] rfl rfl (by decide)
  have h7 : Step cfg0 envOk "x.test"
      { tasks := [⟨0, "http://x.test/", 0, .scanning [] [1]⟩,
                  ⟨1, "http://x.test/a", 1, .entry⟩],
        visited := ["http://x.test/"], pages := [pageHome], sem := 1,
        nextId := 2, rootFailed := false, fetched := ["http://x.test/"],
        acquires := 1, releases := 0, waits := 0 }
      { tasks := [⟨0, "http://x.test/", 0, .joining [1]⟩,
                  ⟨1, "http://x.test/a", 1, .entry⟩],
        visited := ["http://x.test/"], pages := [pageHome], sem := 1,
        nextId := 2, rootFailed := false, fetched := ["http://x.test/"],
        acquires := 1, releases := 0, waits := 0 } :=
    Step.scanDone _ [] [⟨1, "http://x.test/a", 1, .entry⟩]
      ⟨0, "http://x.test/", 0, .scanning [] [1]⟩ [1] rfl rfl
  have h8 : Step cfg0 envOk "x.test"
      { tasks := [⟨0, "http://x.test/", 0, .joining [1]⟩,
                  ⟨1, "http://x.test/a", 1, .entry⟩],
        visited := ["http://x.test/"], pages := [pageHome], sem := 1,
        nextId := 2, rootFailed := false, fetched := ["http://x.test/"],
        acquires := 1, releases := 0, waits := 0 }
      { tasks := [⟨0, "http://x.test/", 0, .joining [1]⟩],
        visited := ["http://x.test/"], pages := [pageHome], sem := 1,
        nextId := 2, rootFailed := false, fetched := ["http://x.test/"],
        acquires := 1, releases := 0, waits := 0 } :=
    Step.entryDeep _ [⟨0, "http://x.test/", 0, .joining [1]⟩] []
      ⟨1, "http://x.test/a", 1, .entry⟩ rfl rfl (by decide)
  have h9 : Step cfg0 envOk "x.test"
      { tasks := [⟨0, "http://x.test/", 0, .joining [1]⟩],
        visited := ["http://x.test/"], pages := [pageHome], sem := 1,
        nextId := 2, rootFailed := false, fetched := ["http://x.test/"],
        acquires := 1, releases := 0, waits := 0 } stB :=
    Step.joinDone _ [] [] ⟨0, "http://x.test/", 0, .joining [1]⟩ [1]
      rfl rfl (by simp)
  exact Relation.ReflTransGen.head h1 (Relation.ReflTransGen.head h2
    (Relation.ReflTransGen.head h3 (Relation.ReflTransGen.head h4
      (Relation.ReflTransGen.head h5 (Relation.ReflTransGen.head h6
        (Relation.ReflTransGen.head h7 (Relation.ReflTransGen.head h8
          (Relation.ReflTransGen.head h9 Relation.ReflTransGen.refl))))))))

/-- Terminal state of the `cfgOk` crawl of `envFail`: the seed URL parsed,
but the seed page's fetch failed, so the error propagated to `Crawl`. -/
def stC : St :=
  { tasks := [], visited := ["http://x.test/"], pages := [],
    sem := 0, nextId := 1, rootFailed := true,
    fetched := ["http://x.test/"], acquires := 1, releases := 1, waits := 0 }

theorem reachC : Reach cfgOk envFail "x.test" stC := by
  have h1 : Step cfgOk envFail "x.test" (initSt cfgOk)
      { tasks := [⟨0, "http://x.test/", 0, .waiting⟩],
        visited := ["http://x.test/"], pages := [], sem := 0, nextId := 1,
        rootFailed := false, fetched := [], acquires := 0, releases := 0,
        waits := 0 } :=
    Step.entryWins _ [] [] ⟨0, "http://x.test/", 0, .entry⟩ rfl rfl
      (by decide) (by decide)
  have h2 : Step cfgOk envFail "x.test"
      { tasks := [⟨0, "http://x.test/", 0, .waiting⟩],
        visited := ["http://x.test/"], pages := [], sem := 0, nextId := 1,
        rootFailed := false, fetched := [], acquires := 0, releases := 0,
        waits := 0 }
      { tasks := [⟨0, "http://x.test/", 0, .fetching⟩],
        visited := ["http://x.test/"], pages := [], sem := 1, nextId := 1,
        rootFailed := false, fetched := [], acquires := 1, releases := 0,
        waits := 0 } :=
    Step.acquire _ [] [] ⟨0, "http://x.test/", 0, .waiting⟩ rfl rfl
      (by decide)
  have h3 : Step cfgOk envFail "x.test"
      { tasks := [⟨0, "http://x.test/", 0, .fetching⟩],
        visited := ["http://x.test/"], pages := [], sem := 1, nextId := 1,
        rootFailed := false, fetched := [], acquires := 1, releases := 0,
        waits := 0 } stC :=
    Step.fetchFail _ [] [] ⟨0, "http://x.test/", 0, .fetching⟩ rfl rfl
      (by decide)
  exact Relation.ReflTransGen.head h1 (Relation.ReflTransGen.head h2
    (Relation.ReflTransGen.head h3 Relation.ReflTransGen.refl))

/-- Terminal state of the `cfgNeg` (maxDepth -1) crawl: the root task died
at the depth check without fetching or marking anything visited. -/
def stD : St :=
  { tasks := [], visited := [], pages := [], sem := 0, nextId := 1,
    rootFailed := false, fetched := [], acquires := 0, releases := 0,
    waits := 0 }

theorem reachD : Reach cfgNeg envOk "x.test" stD := by
  have h1 : Step cfgNeg envOk "x.test" (initSt cfgNeg) stD :=
    Step.entryDeep _ [] [] ⟨0, "http://x.test/", 0, .entry⟩ rfl rfl
      (by decide)
  exact Relation.ReflTransGen.head h1 Relation.ReflTransGen.refl

/-- C2 counterexample: the claim as stated says a failure fetching the
seed page itself is never fatal to the crawl.  Here the seed URL parses
(so `crawlStart` succeeds and this is not the `InvalidSeedURL` case), the
only failure in the whole run is the seed page's fetch, the crawl runs to
completion — and `Crawl` ends in the error outcome (`finalResult = none`,
modelling the `return nil, err` at crawler.go 61-63), because the root
`crawlPage` call's error is the one error `Crawl` inspects. -/
theorem C2_counterexample :
    crawlStart cfgOk envFail = some ("x.test", initSt cfgOk) ∧
    Reach cfgOk envFail "x.test" stC ∧ stC.tasks = [] ∧
    stC.rootFailed = true ∧ finalResult stC = none :=
  ⟨rfl, reachC, rfl, rfl, rfl⟩

/-- C2 witness: in the failed-seed run, the error outcome indeed came from
the seed page's own fetch returning an error. -/
theorem C2_witness :
    envFail.fetch (normalizeURL cfgOk.baseURL) = none ∧
    finalResult stC = none :=
  (C2_error_only_on_seed_failure cfgOk envFail "x.test" reachC).1 rfl

/-- C7: the claim says every visit waits the configured politeness delay
(`config.delay`) between winning the visited test-and-set and fetching,
honoring deadline cancellation.  crawler.go stores `delay` in `New`
(line 42) but never reads it, and has no deadline or context at all: the
fetch begins immediately after the test-and-set.  In this run with a
2-second configured delay the seed page is fetched and appended while the
ghost politeness-wait counter — which no step of the embedded crawlPage
ever increments, because the source contains no wait — stays 0. -/
theorem C7_no_politeness_wait :
    cfgOk.delay = 2000000000 ∧
    Reach cfgOk envOk "x.test" stA ∧
    stA.pages = [pageHome] ∧ stA.fetched = ["http://x.test/"] ∧
    stA.waits = 0 :=
  ⟨rfl, reachA, rfl, rfl, rfl⟩

/-- C1 witness: the two-page crawl prefix has duplicate-free page URLs and
a duplicate-free fetch history. -/
theorem C1_witness :
    (stA.pages.map Page.URL).Nodup ∧ stA.fetched.Nodup :=
  C1_no_duplicate_visits cfgOk envOk "x.test" reachA

/-- C4 witness: the completed maxDepth-0 crawl holds exactly the seed
page at depth 0. -/
theorem C4_witness :
    stB.pages = [pageOf (normalizeURL cfg0.baseURL) rHome 0] :=
  (C4_depth_bound cfg0 envOk "x.test" reachB).2.2 rfl rfl rHome (by decide)

/-- C5 witness: the recorded seed page's URL parses to the base domain
`x.test`. -/
theorem C5_witness : envOk.hostname pageHome.URL = some "x.test" :=
  C5_domain_filter cfgOk envOk "x.test" (fun _ => rfl) rfl reachA
    pageHome (by decide)

/-- C6 witness: in the completed maxDepth-0 crawl no fetch is in flight,
and the acquire/release ghost counters balance exactly. -/
theorem C6_witness :
    stB.tasks.countP isFetching ≤ maxConcurrentFetches ∧
    stB.acquires = stB.releases + stB.tasks.countP isHolder ∧
    (stB.tasks = [] → stB.acquires = stB.releases) :=
  C6_concurrency_bound cfg0 envOk "x.test" reachB

/-- C9 witness: after the seed fetch failed, the seed's canonical URL is
still recorded as visited, and the fetch history has no duplicates. -/
theorem C9_witness :
    "http://x.test/" ∈ stC.visited ∧ stC.fetched.Nodup :=
  ⟨(C9_failed_url_never_retried cfgOk envFail "x.test" reachC).1
      "http://x.test/" (by decide),
   (C9_failed_url_never_retried cfgOk envFail "x.test" reachC).2.2.1⟩

/-- C10 witness: with maxDepth -1 the crawl performed no fetch, marked
nothing visited, and returned the empty page list without error. -/
theorem C10_witness :
    stD.pages = [] ∧ stD.visited = [] ∧ stD.fetched = [] ∧ stD.sem = 0 ∧
    stD.rootFailed = false ∧ finalResult stD = some [] := by
  have h := C10_negative_maxDepth_noop cfgNeg envOk "x.test" (by decide) reachD
  exact ⟨h.1, h.2.1, h.2.2.1, h.2.2.2.1, h.2.2.2.2.1, h.2.2.2.2.2 rfl⟩

end Docrawl
